import Mathlib

/-!
# withmock: the scratch-identity scheme and the dependency-closure resolver

A shallow embedding of `lib/lib.go` (import marks, `markImport`, `getMark`,
`LookupImportPath`, `hasNonGoCode`, `GenPkg`, `MockStandard`, `LinkPkg`) and of
`lib/context.go` (`Context`, `wantToProcess`, `installImports`), followed by
theorems about them.

Conventions of the embedding

* A Go `string` is a sequence of bytes: `GoString := List UInt8`.  Slicing
  `s[1:]` and indexing `s[0]` are byte operations, as in Go.
* A Go `map[string]V` is an association list with distinct keys (`GoMap V`);
  `m[k] = v` replaces in place or appends, `delete(m, k)` filters.
* The order of a `range` over a Go map is unspecified.  Where it can be observed
  it is an input: the order of the range over `names` in `wantToProcess`
  (`rangeOrder`) and the order in which the loop of `installImports` visits the
  pending entries (`choose`).  The range over `imports` in `wantToProcess`
  follows the list; two layouts of one map are two lists, permutations of each
  other.
* A Go panic is a value of `Panic`; a returned `error` is a value of `Error`.
* Calls that touch the file system, run the `go` tool or generate a package are
  fields of `Env`.  Every call of `LinkPkg`, `GenPkg` and `MockStandard` made
  by the resolver, and every write these make, is appended to a trace of
  `Event`s.
-/

namespace Withmock

/-! ## Strings and maps -/

/-- A Go string: a finite sequence of bytes. -/
abbrev GoString := List UInt8

/-- The bytes of an ASCII literal (each character below 128 is one byte). -/
def str (s : String) : GoString := s.toList.map (fun ch => UInt8.ofNat ch.toNat)

/-- Go `strings.HasPrefix`. -/
def hasPrefix (s pre : GoString) : Bool := pre.isPrefixOf s

/-- Go `strings.HasSuffix`. -/
def hasSuffix (s suf : GoString) : Bool := suf.isSuffixOf s

/-- A Go map with string keys, as an association list with distinct keys. -/
abbrev GoMap (V : Type) := List (GoString × V)

namespace GoMap

variable {V : Type}

/-- The comma-ok lookup `v, found := m[k]`. -/
def get? : GoMap V → GoString → Option V
  | [], _ => none
  | (k', v) :: m, k => if k' = k then some v else get? m k

/-- The plain lookup `m[k]`, yielding the zero value `d` for a missing key. -/
def getD (m : GoMap V) (k : GoString) (d : V) : V := (get? m k).getD d

/-- The assignment `m[k] = v`. -/
def set : GoMap V → GoString → V → GoMap V
  | [], k, v => [(k, v)]
  | (k', v') :: m, k, v => if k' = k then (k', v) :: m else (k', v') :: set m k v

/-- The builtin `delete(m, k)`. -/
def delete (m : GoMap V) (k : GoString) : GoMap V := m.filter (fun p => !(p.1 == k))

/-- The keys of the map. -/
def keys (m : GoMap V) : List GoString := m.map Prod.fst

end GoMap

/-- The element at position `i` of `x :: xs` (the last one when `i` is too large) and the
other elements, in their order. -/
def pickAt {α : Type} : Nat → α → List α → α × List α
  | 0, x, xs => (x, xs)
  | _ + 1, x, [] => (x, [])
  | i + 1, x, y :: ys => ((pickAt i y ys).1, x :: (pickAt i y ys).2)

/-- The order in which a `range` loop visits the entries of a Go map.  The language leaves
it unspecified and it differs from one loop to the next, so it is an input: each number of
`order` picks the next entry among those not yet visited; when `order` runs out the rest
is visited in list order.  The result is always a permutation of the entries, and every
permutation is the result of some `order`. -/
def rangeOrder {α : Type} : List Nat → List α → List α
  | _, [] => []
  | [], x :: xs => x :: xs
  | i :: rest, x :: xs => (pickAt i x xs).1 :: rangeOrder rest (pickAt i x xs).2

deriving instance DecidableEq for Except

/-! ## Import marks (`lib.go`, lines 174-208) -/

/-- Go `type mark string`. -/
abbrev mark := GoString

def noMark : mark := str ""
def normalMark : mark := str "+"
def mockMark : mark := str "_"
def testMark : mark := str "@"

/-- The run-time panics the embedded code can raise. -/
inductive Panic where
  /-- The panic `panic(fmt.Sprintf("Unknown import mark: %s", m))` of `markImport`. -/
  | unknownImportMark (m : mark)
  /-- The slice expression `name[1:]` on the empty string. -/
  | sliceBounds
  /-- The index expression `label[0]` on the empty string. -/
  | indexRange
  /-- The panic `panic(err)` of `exists`, on a failure of `os.Stat` other than not-exist. -/
  | stat (msg : GoString)
  deriving DecidableEq

/-- Go `markImport`: `noMark` and `normalMark` return the name unchanged,
`mockMark` and `testMark` return `string(m) + name[1:]`, anything else panics. -/
def markImport (name : GoString) (m : mark) : Except Panic GoString :=
  if m = noMark ∨ m = normalMark then
    .ok name
  else if m = mockMark ∨ m = testMark then
    match name with
    | [] => .error Panic.sliceBounds
    | _ :: rest => .ok (m ++ rest)
  else
    .error (Panic.unknownImportMark m)

/-- Go `getMark`: a switch on the first byte of the label. -/
def getMark (label : GoString) : Except Panic mark :=
  match label with
  | [] => .error Panic.indexRange
  | b :: _ =>
    if some b = mockMark.head? then .ok mockMark
    else if some b = testMark.head? then .ok testMark
    else .ok normalMark

/-! ## Errors, the environment and the trace -/

/-- The per-package mock configuration `*MockConfig` handed to the package
generator; its content is not inspected by the embedded code. -/
abbrev MockConfig := Nat

/-- The `error` values the embedded code returns. -/
inductive Error where
  /-- An error returned by a call of the environment (its text). -/
  | external (msg : GoString)
  /-- The error `fmt.Errorf("Unable to find package: %s", impPath)` of `LookupImportPath`. -/
  | unableToFind (impPath : GoString)
  /-- The error `fmt.Errorf("Package '%s' not found in any of '%s'.", name, srcPath)`. -/
  | notFoundInAny (name srcPath : GoString)
  /-- The error `fmt.Errorf("Unable to mock \"%s\". ...")` of `installImports`. -/
  | unsupportedMock (name : GoString)
  deriving DecidableEq

/-- How a call ends when it does not return normally: a panic or an error. -/
inductive Abort where
  | panic (p : Panic)
  | error (e : Error)
  deriving DecidableEq

/-- The three answers of `os.Stat` that `exists` tells apart. -/
inductive StatResult where
  | found
  | notExist
  | failed (msg : GoString)
  deriving DecidableEq

/-- The file system, the `go` tool and the package generator, as seen by the
embedded code.  An `Except GoString` result carries the text of the error. -/
structure Env where
  /-- Go `GetOutput(name, args...)`: runs an external program. -/
  GetOutput : GoString → List GoString → Except GoString GoString
  /-- The entries `filepath.Walk(src, fn)` hands to a callback that answers
  `filepath.SkipDir` on every directory except `src`: path and `IsDir()`; or
  the error that ends the walk. -/
  Walk : GoString → Except GoString (List (GoString × Bool))
  /-- Go `os.Stat(path)`. -/
  Stat : GoString → StatResult
  /-- Go `filepath.SplitList`. -/
  SplitList : GoString → List GoString
  /-- Go `filepath.Join`. -/
  Join : List GoString → GoString
  /-- Go `os.MkdirAll(dst, 0700)`. -/
  MkdirAll : GoString → Except GoString Unit
  /-- Go `MakePkg(src, dst, mock, cfg)`: the package generator. -/
  MakePkg : GoString → GoString → Bool → MockConfig → Except GoString (GoMap Bool)
  /-- Go `symlinkPackage(src, dst)`. -/
  symlinkPackage : GoString → GoString → Except GoString Unit
  /-- Go `GetImports(path, tests)`: the import extractor. -/
  GetImports : GoString → Bool → Except GoString (GoMap Bool)

/-- What the resolver does to the workspace, in the order it does it. -/
inductive Event where
  /-- A call `LinkPkg(srcPath, dstRoot, name)`. -/
  | LinkPkg (srcPath dstRoot name : GoString)
  /-- A call `GenPkg(srcPath, dstRoot, name, mock, cfg)`. -/
  | GenPkg (srcPath dstRoot name : GoString) (mock : Bool) (cfg : MockConfig)
  /-- A call `MockStandard(srcRoot, dstRoot, name, cfg)`. -/
  | MockStandard (srcRoot dstRoot name : GoString) (cfg : MockConfig)
  /-- A call `os.MkdirAll(dst, 0700)`. -/
  | MkdirAll (dst : GoString)
  /-- A call `MakePkg(src, dst, mock, cfg)`. -/
  | MakePkg (src dst : GoString) (mock : Bool) (cfg : MockConfig)
  /-- A call `symlinkPackage(src, dst)`. -/
  | symlinkPackage (src dst : GoString)
  deriving DecidableEq

/-- The result of a call together with the workspace events it performed. -/
abbrev Eff (α : Type) := List Event × Except Abort α

/-! ## `lib.go`: lookup and materialization -/

/-- Go `LookupImportPath`. -/
def LookupImportPath (env : Env) (impPath : GoString) : Except Error GoString :=
  if hasPrefix impPath (str "_/") then
    .ok (impPath.drop 1)
  else
    match env.GetOutput (str "go")
        [str "list", str "-e", str "-f", str "\x7b\x7b.Dir\x7d\x7d", impPath] with
    | .error msg => .error (Error.external msg)
    | .ok path =>
      if path = str "" then .error (Error.unableToFind impPath) else .ok path

/-- Go `hasNonGoCode`: a file met by the walk whose path ends in `.c` or `.s`
sets the flag; directories never do.  (On an error Go also returns the flag
computed so far, which the only caller ignores.) -/
def hasNonGoCode (env : Env) (impPath : GoString) : Except Error Bool :=
  match LookupImportPath env impPath with
  | .error e => .error e
  | .ok src =>
    match env.Walk src with
    | .error msg => .error (Error.external msg)
    | .ok entries =>
      .ok (entries.any (fun e =>
        !e.2 && (hasSuffix e.1 (str ".c") || hasSuffix e.1 (str ".s"))))

/-- Go `exists`. -/
def «exists» (env : Env) (path : GoString) : Except Panic Bool :=
  match env.Stat path with
  | .found => .ok true
  | .notExist => .ok false
  | .failed msg => .error (Panic.stat msg)

/-- The loop `for _, src := range filepath.SplitList(srcPath)` shared by `GenPkg`
and `LinkPkg`: the first root under which `src/name` exists, else `""`. -/
def findSrcRoot (env : Env) (name : GoString) : List GoString → Except Panic GoString
  | [] => .ok (str "")
  | src :: rest =>
    match «exists» env (env.Join [src, str "src", name]) with
    | .error p => .error p
    | .ok true => .ok src
    | .ok false => findSrcRoot env name rest

/-- Go `GenPkg`. -/
def GenPkg (env : Env) (srcPath dstRoot name : GoString) (mock : Bool) (cfg : MockConfig) :
    Eff (GoMap Bool) :=
  match findSrcRoot env name (env.SplitList srcPath) with
  | .error p => ([], .error (Abort.panic p))
  | .ok srcRoot =>
    if srcRoot = str "" then
      ([], .error (Abort.error (Error.notFoundInAny name srcPath)))
    else
      let src := env.Join [srcRoot, str "src", name]
      let dst := env.Join [dstRoot, str "src", name]
      match env.MkdirAll dst with
      | .error msg => ([Event.MkdirAll dst], .error (Abort.error (Error.external msg)))
      | .ok _ =>
        match env.MakePkg src dst mock cfg with
        | .error msg =>
          ([Event.MkdirAll dst, Event.MakePkg src dst mock cfg],
            .error (Abort.error (Error.external msg)))
        | .ok imports =>
          ([Event.MkdirAll dst, Event.MakePkg src dst mock cfg], .ok imports)

/-- Go `MockStandard`. -/
def MockStandard (env : Env) (srcRoot dstRoot name : GoString) (cfg : MockConfig) :
    Eff Unit :=
  let src := env.Join [srcRoot, str "src/pkg", name]
  match markImport name mockMark with
  | .error p => ([], .error (Abort.panic p))
  | .ok label =>
    let dst := env.Join [dstRoot, str "src", label]
    match env.MkdirAll dst with
    | .error msg => ([Event.MkdirAll dst], .error (Abort.error (Error.external msg)))
    | .ok _ =>
      match env.MakePkg src dst true cfg with
      | .error msg =>
        ([Event.MkdirAll dst, Event.MakePkg src dst true cfg],
          .error (Abort.error (Error.external msg)))
      | .ok _ => ([Event.MkdirAll dst, Event.MakePkg src dst true cfg], .ok ())

/-- Go `LinkPkg`. -/
def LinkPkg (env : Env) (srcPath dstRoot name : GoString) : Eff (GoMap Bool) :=
  match findSrcRoot env name (env.SplitList srcPath) with
  | .error p => ([], .error (Abort.panic p))
  | .ok srcRoot =>
    if srcRoot = str "" then
      ([], .error (Abort.error (Error.notFoundInAny name srcPath)))
    else
      let src := env.Join [srcRoot, str "src", name]
      let dst := env.Join [dstRoot, str "src", name]
      match env.symlinkPackage src dst with
      | .error msg =>
        ([Event.symlinkPackage src dst], .error (Abort.error (Error.external msg)))
      | .ok _ =>
        match env.GetImports src false with
        | .error msg =>
          ([Event.symlinkPackage src dst], .error (Abort.error (Error.external msg)))
        | .ok imports => ([Event.symlinkPackage src dst], .ok imports)

/-! ## `context.go`: the resolver -/

/-- The fields of Go `Context` that the resolver reads or writes.  `cfg` is the
method `c.cfg.Mock`. -/
structure Context where
  goPath : GoString
  goRoot : GoString
  tmpPath : GoString
  stdlibImports : GoMap Bool
  excludes : GoMap Bool
  processed : GoMap Bool
  importRewrites : GoMap GoString
  cfg : GoString → MockConfig

/-- The first loop of `wantToProcess` (lines 173-186), over the entries of
`imports` in the order the `range` visits them. -/
def wantToProcess_scan (mockAllowed : Bool) (stdlibImports : GoMap Bool) :
    List (GoString × Bool) → GoMap GoString → GoMap Bool →
    Except Panic (GoMap GoString × GoMap Bool)
  | [], names, processed => .ok (names, processed)
  | (name, mock) :: rest, names, processed =>
    match markImport name normalMark with
    | .error p => .error p
    | .ok plain =>
      match (if mock && mockAllowed && stdlibImports.getD name false
             then markImport name mockMark else .ok plain) with
      | .error p => .error p
      | .ok label =>
        let names := names.set name label
        let processed := processed.set label (processed.getD label false || false)
        let processed :=
          if hasSuffix label (str "/_mocks_") then processed.set label true else processed
        wantToProcess_scan mockAllowed stdlibImports rest names processed

/-- The second loop of `wantToProcess` (lines 190-196), over the entries the names map
has when the loop starts, in the order given by the first argument.  (The loop deletes
only the entry it is visiting, so every entry of the snapshot is visited.) -/
def wantToProcess_prune :
    List (GoString × GoString) → GoMap GoString → GoMap GoString →
    GoMap GoString × GoMap GoString
  | [], names, importRewrites => (names, importRewrites)
  | (orig, marked) :: rest, names, importRewrites =>
    if orig = marked then
      wantToProcess_prune rest (names.delete orig) importRewrites
    else
      wantToProcess_prune rest names (importRewrites.set marked orig)

/-- Go `(*Context).wantToProcess`: returns the names map and the context as
the call leaves it.  The first loop ranges over `imports` in the order of the list (what
it writes, `names[name]` and `c.processed[label]`, depends on that order only through the
layout of the association lists); the second loop ranges over `names` in the order
`order`, which decides the rule `c.importRewrites[marked]` that is written last when two
imports have the same label. -/
def wantToProcess (order : List Nat) (mockAllowed : Bool) (imports : GoMap Bool)
    (c : Context) : Except Panic (GoMap GoString × Context) :=
  match wantToProcess_scan mockAllowed c.stdlibImports imports [] c.processed with
  | .error p => .error p
  | .ok (names, processed) =>
    let r := wantToProcess_prune (rangeOrder order names) names c.importRewrites
    .ok (r.1, { c with processed := processed, importRewrites := r.2 })

/-- The state of a run of `installImports`: the context, the workspace events
performed so far, and the worklist labels dispatched so far (latest last). -/
structure State where
  c : Context
  trace : List Event
  visited : List GoString

/-- Lines 225-231 of `installImports`: the real identifier and the effective
mock flag of a worklist label. -/
def resolve (c : Context) (imports : GoMap Bool) (label : GoString) : GoString × Bool :=
  match c.importRewrites.get? label with
  | some n => (n, true)
  | none => (label, imports.getD label false)

/-- The tail shared by the two branches of `installImports` that extend the
worklist: `c.wantToProcess(false, pkgImports)`, the names map being dropped.  With
`mockAllowed = false` the second loop deletes every entry and records none, whatever
its order (`wantToProcess_false_eq`), so that order is not an input here; the order of
the first loop only decides where the new labels sit in `c.processed`, that is, the order
of the pending entries, which the choices of the loop leave free. -/
def extendWorklist (s : State) (pkgImports : GoMap Bool) : State × Except Abort Unit :=
  match wantToProcess [] false pkgImports s.c with
  | .error p => (s, .error (Abort.panic p))
  | .ok (_, c) => ({ s with c := c }, .ok ())

/-- The body of the inner loop of `installImports` (lines 222-290) for an entry
`label` whose `done` flag is false: `.ok ()` stands for reaching the next
iteration, `.error` for `return nil, err` or a panic. -/
def processEntry (env : Env) (imports : GoMap Bool) (s : State) (label : GoString) :
    State × Except Abort Unit :=
  let c := { s.c with processed := s.c.processed.set label true }
  let s := { s with c := c, visited := s.visited ++ [label] }
  let name := (resolve c imports label).1
  let mock := (resolve c imports label).2
  let cfg := c.cfg name
  if c.excludes.getD name false then
    let r := LinkPkg env c.goPath c.tmpPath name
    let s := { s with trace := s.trace ++ Event.LinkPkg c.goPath c.tmpPath name :: r.1 }
    match r.2 with
    | .error a => (s, .error a)
    | .ok _ => (s, .ok ())
  else if c.stdlibImports.getD name false then
    if mock then
      let r := MockStandard env c.goRoot c.tmpPath name cfg
      let s :=
        { s with trace := s.trace ++ Event.MockStandard c.goRoot c.tmpPath name cfg :: r.1 }
      match r.2 with
      | .error a => (s, .error a)
      | .ok _ => (s, .ok ())
    else
      (s, .ok ())
  else
    match hasNonGoCode env name with
    | .error e => (s, .error (Abort.error e))
    | .ok nonGoCode =>
      if nonGoCode then
        if mock then
          (s, .error (Abort.error (Error.unsupportedMock name)))
        else
          let r := LinkPkg env c.goPath c.tmpPath name
          let s := { s with trace := s.trace ++ Event.LinkPkg c.goPath c.tmpPath name :: r.1 }
          match r.2 with
          | .error a => (s, .error a)
          | .ok pkgImports => extendWorklist s pkgImports
      else
        let r := GenPkg env c.goPath c.tmpPath name mock cfg
        let s :=
          { s with trace := s.trace ++ Event.GenPkg c.goPath c.tmpPath name mock cfg :: r.1 }
        match r.2 with
        | .error a => (s, .error a)
        | .ok pkgImports => extendWorklist s pkgImports

/-- The worklist entries whose `done` flag is false. -/
def pending (processed : GoMap Bool) : List GoString :=
  processed.keys.filter (fun k => processed.get? k = some false)

/-- The pending entry that the choice `i` selects. -/
def choose (p : GoString) (ps : List GoString) (i : Nat) : GoString :=
  (p :: ps).getD (i % (p :: ps).length) p

/-- The fixed-point loop of `installImports` (lines 213-292).  The order in
which a `range` over a Go map visits its entries is unspecified, and entries
added during the iteration may be visited in the same pass or in the next one;
what every execution does is to dispatch, again and again, some entry whose
`done` flag is false, until none is left.  `choices` fixes the order: at each
dispatch the next number selects one of the pending entries.  The result is
`none` when `choices` runs out before the loop is complete. -/
def installLoop (env : Env) (imports : GoMap Bool) :
    List Nat → State → State × Option (Except Abort Unit)
  | choices, s =>
    match pending s.c.processed with
    | [] => (s, some (.ok ()))
    | p :: ps =>
      match choices with
      | [] => (s, none)
      | i :: rest =>
        let label := choose p ps i
        match processEntry env imports s label with
        | (s, .error a) => (s, some (.error a))
        | (s, .ok _) => installLoop env imports rest s

/-- Go `(*Context).installImports`: on success the names map computed by the
first `wantToProcess`; the state is the one the call leaves behind.  `order` is the order
of the range over `names` in that first `wantToProcess`, `choices` the order in which the
loop visits the pending entries. -/
def installImports (env : Env) (imports : GoMap Bool) (order choices : List Nat)
    (s : State) : State × Option (Except Abort (GoMap GoString)) :=
  match wantToProcess order true imports s.c with
  | .error p => (s, some (.error (Abort.panic p)))
  | .ok (names, c) =>
    match installLoop env imports choices { s with c := c } with
    | (s, none) => (s, none)
    | (s, some (.error a)) => (s, some (.error a))
    | (s, some (.ok _)) => (s, some (.ok names))

/-! ## Definitions used to state the theorems -/

/-- Whether the first byte of the string is `_` or `@`, the two bytes `getMark` looks for. -/
def startsWithMark (s : GoString) : Bool :=
  s.head? == mockMark.head? || s.head? == testMark.head?

/-- The four marks `markImport` has a case for. -/
def recognized (m : mark) : Prop :=
  m = noMark ∨ m = normalMark ∨ m = mockMark ∨ m = testMark

instance (m : mark) : Decidable (recognized m) := by unfold recognized; infer_instance

/-- The label `wantToProcess` computes for one entry of `imports`. -/
def labelOf (mockAllowed : Bool) (stdlibImports : GoMap Bool) (i : GoString × Bool) :
    Except Panic GoString :=
  if i.2 && mockAllowed && stdlibImports.getD i.1 false then markImport i.1 mockMark else .ok i.1

/-- What lines 180-185 do to the worklist for one label. -/
def addLabel (processed : GoMap Bool) (label : GoString) : GoMap Bool :=
  let processed := processed.set label (processed.getD label false || false)
  if hasSuffix label (str "/_mocks_") then processed.set label true else processed

/-- Adding labels one after the other. -/
def addAll (processed : GoMap Bool) (labels : List GoString) : GoMap Bool :=
  labels.foldl addLabel processed

/-- The labels of all entries, or the first panic. -/
def labelsOf (mockAllowed : Bool) (stdlibImports : GoMap Bool) :
    List (GoString × Bool) → Except Panic (List (GoString × GoString))
  | [] => .ok []
  | i :: rest =>
    match labelOf mockAllowed stdlibImports i with
    | .error p => .error p
    | .ok l =>
      match labelsOf mockAllowed stdlibImports rest with
      | .error p => .error p
      | .ok ls => .ok ((i.1, l) :: ls)

/-- Several assignments in a row. -/
def GoMap.setMany {V : Type} (m : GoMap V) (kvs : List (GoString × V)) : GoMap V :=
  kvs.foldl (fun m p => m.set p.1 p.2) m

/-- The dispatch of one entry (lines 225-290 of `installImports`) as a function of
the label alone: the workspace events, and either the abort or the identifiers
handed to `wantToProcess(false, _)` (none for an excluded or host-builtin entry). -/
def dispatch (env : Env) (imports : GoMap Bool) (c : Context) (label : GoString) :
    List Event × Except Abort (List GoString) :=
  let name := (resolve c imports label).1
  let mock := (resolve c imports label).2
  let cfg := c.cfg name
  if c.excludes.getD name false then
    let r := LinkPkg env c.goPath c.tmpPath name
    (Event.LinkPkg c.goPath c.tmpPath name :: r.1,
      match r.2 with
      | .error a => .error a
      | .ok _ => .ok [])
  else if c.stdlibImports.getD name false then
    if mock then
      let r := MockStandard env c.goRoot c.tmpPath name cfg
      (Event.MockStandard c.goRoot c.tmpPath name cfg :: r.1,
        match r.2 with
        | .error a => .error a
        | .ok _ => .ok [])
    else
      ([], .ok [])
  else
    match hasNonGoCode env name with
    | .error e => ([], .error (Abort.error e))
    | .ok nonGoCode =>
      if nonGoCode then
        if mock then
          ([], .error (Abort.error (Error.unsupportedMock name)))
        else
          let r := LinkPkg env c.goPath c.tmpPath name
          (Event.LinkPkg c.goPath c.tmpPath name :: r.1,
            match r.2 with
            | .error a => .error a
            | .ok pkgImports => .ok pkgImports.keys)
      else
        let r := GenPkg env c.goPath c.tmpPath name mock cfg
        (Event.GenPkg c.goPath c.tmpPath name mock cfg :: r.1,
          match r.2 with
          | .error a => .error a
          | .ok pkgImports => .ok pkgImports.keys)

/-- The worklist after the dispatch of `label`. -/
def processedAfter (P : GoMap Bool) (label : GoString) (r : Except Abort (List GoString)) :
    GoMap Bool :=
  match r with
  | .error _ => P.set label true
  | .ok ns => addAll (P.set label true) ns

/-- Reaching the next iteration, or the abort. -/
def stepResult (r : Except Abort (List GoString)) : Except Abort Unit :=
  match r with
  | .error a => .error a
  | .ok _ => .ok ()

/-- A sequence of dispatches: each picks an entry whose flag is false and reaches
the next iteration. -/
inductive Runs (env : Env) (imports : GoMap Bool) : State → List GoString → State → Prop where
  | done (s : State) : Runs env imports s [] s
  | step (s s1 s' : State) (l : GoString) (V : List GoString)
      (hl : s.c.processed.get? l = some false)
      (hstep : processEntry env imports s l = (s1, .ok ()))
      (hrest : Runs env imports s1 V s') : Runs env imports s (l :: V) s'

/-- No label of the special mocks package is pending. -/
def mocksDone (P : GoMap Bool) : Prop :=
  ∀ k, hasSuffix k (str "/_mocks_") = true → P.get? k ≠ some false

/-- The number of labels of `U` not yet processed. -/
def remaining (U : List GoString) (P : GoMap Bool) : Nat :=
  (U.dedup.filter (fun k => !(P.get? k == some true))).length

/-! ## A small workspace on which the theorems are exercised -/

/-- The package `NewContext` excludes from mocking. -/
def gomock : GoString := str "code.google.com/p/gomock/gomock"

/-- The imports declared by the packages of the demonstration workspace, by source path. -/
def demoPkgImports (path : GoString) : GoMap Bool :=
  if path = str "/go/src/a" then [(str "b", false), (str "os", true)]
  else if path = str "/go/src/b" then [(str "a", false), (str "cg", false)]
  else if path = str "/go/src/cg" then [(str "unsafe", false)]
  else if path = str "/go/src/code.google.com/p/gomock/gomock" then [(str "dep", false)]
  else []

/-- A workspace with the packages `a`, `b` (importing each other), `cg` and `x/_mocks_`
(each holding a C file) under the root `/go`; every call succeeds. -/
def demoEnv : Env where
  GetOutput := fun _ args => .ok (str "/go/src/" ++ args.getLastD [])
  Walk := fun src =>
    if src = str "/go/src/cg" ∨ src = str "/go/src/x/_mocks_" then
      .ok [(src, true), (src ++ str "/x.go", false), (src ++ str "/y.c", false)]
    else
      .ok [(src, true), (src ++ str "/x.go", false), (src ++ str "/sub.c", true)]
  Stat := fun _ => StatResult.found
  SplitList := fun p => [p]
  Join := fun l => (str "/").intercalate l
  MkdirAll := fun _ => .ok ()
  MakePkg := fun src _ _ _ => .ok (demoPkgImports src)
  symlinkPackage := fun _ _ => .ok ()
  GetImports := fun path _ => .ok (demoPkgImports path)

/-- The context `NewContext` builds: empty worklist and rewrite map, `gomock` excluded. -/
def demoContext : Context where
  goPath := str "/go"
  goRoot := str "/goroot"
  tmpPath := str "/tmp/w"
  stdlibImports := [(str "os", true), (str "unsafe", true), (str "C", true)]
  excludes := [(gomock, true)]
  processed := []
  importRewrites := []
  cfg := fun _ => 0

/-- The state before the first call of `installImports`. -/
def demoState : State := ⟨demoContext, [], []⟩

/-- Root imports: the package `a`, and the host-builtin `os` marked for mocking. -/
def demoImports : GoMap Bool := [(str "a", false), (str "os", true)]

/-- The context after `wantToProcess(true, demoImports)`. -/
def demoContext1 : Context :=
  { demoContext with
    processed := [(str "a", false), (str "_s", false)]
    importRewrites := [(str "_s", str "os")] }

/-- The labels the resolution of `demoImports` can meet. -/
def demoUniverse : List GoString :=
  [str "a", str "_s", str "b", str "os", str "cg", str "unsafe"]

/-- A state whose only pending entry is the excluded package. -/
def demoExcludedState : State :=
  ⟨{ demoContext with processed := [(gomock, false)] }, [], []⟩

/-- A state whose only pending entry is the package with a C file. -/
def demoCgoState : State :=
  ⟨{ demoContext with processed := [(str "cg", false)] }, [], []⟩

/-- The state in which the loop of `installImports` starts on `demoImports`. -/
def demoBuiltinState : State := ⟨demoContext1, [], []⟩

/-- Root imports in which the identifier `_s` is also the mock label of `os`. -/
def collidingImports : GoMap Bool := [(str "_s", false), (str "os", true)]

/-- Root imports: the excluded package and a special mocks package. -/
def excludedImports : GoMap Bool := [(gomock, false), (str "x/_mocks_", false)]

/-- A context in which `math` and `path` are host-builtins. -/
def mathPathContext : Context :=
  { demoContext with stdlibImports := [(str "math", true), (str "path", true)] }

/-- The state before the first call of `installImports` in that context. -/
def mathPathState : State := ⟨mathPathContext, [], []⟩

/-- Root imports mocking both `math` and `path`. -/
def mathPathImports : GoMap Bool := [(str "math", true), (str "path", true)]

/-- The root imports `demoImports` in the other layout. -/
def demoImportsSwapped : GoMap Bool := [(str "os", true), (str "a", false)]

/-- Root imports mocking the package with a C file. -/
def cgoImports : GoMap Bool := [(str "cg", true)]

/-- Root imports mocking a special mocks package that holds a C file. -/
def mocksImports : GoMap Bool := [(str "x/_mocks_", true)]

/-! ## Theorems -/

theorem noMark_eq : noMark = [] := by decide
theorem normalMark_eq : normalMark = [43] := by decide
theorem mockMark_eq : mockMark = [95] := by decide
theorem testMark_eq : testMark = [64] := by decide

theorem markImport_normalMark (name : GoString) : markImport name normalMark = .ok name := by
  simp [markImport]

theorem markImport_mockMark_cons (b : UInt8) (rest : GoString) :
    markImport (b :: rest) mockMark = .ok (95 :: rest) := by
  simp [markImport, noMark_eq, normalMark_eq, mockMark_eq]

theorem markImport_testMark_cons (b : UInt8) (rest : GoString) :
    markImport (b :: rest) testMark = .ok (64 :: rest) := by
  simp [markImport, noMark_eq, normalMark_eq, mockMark_eq, testMark_eq]

theorem head_cases (b : UInt8) (rest : GoString) :
    startsWithMark (b :: rest) = false ↔ b ≠ 95 ∧ b ≠ 64 := by
  simp [startsWithMark, mockMark_eq, testMark_eq]

/-- Claim C1 fails as stated: the non-empty identifier `_/x`, encoded with the normal mark,
is returned unchanged by `markImport` and decoded by `getMark` as mock. -/
theorem getMark_markImport_counterexample :
    (markImport (str "_/x") normalMark).bind getMark = .ok mockMark ∧ mockMark ≠ normalMark := by
  decide

/-- Claim C1, as amended: for a non-empty identifier and a mark among normal, mock and test,
`getMark (markImport name m)` is `m` exactly when `m` is mock or test, or `m` is normal and
the identifier does not begin with `_` or `@`. -/
theorem getMark_markImport (name : GoString) (m : mark) (hne : name ≠ [])
    (hm : m = normalMark ∨ m = mockMark ∨ m = testMark) :
    (markImport name m).bind getMark = .ok m ↔
      (m = normalMark → startsWithMark name = false) := by
  obtain ⟨b, rest, rfl⟩ := List.exists_cons_of_ne_nil hne
  rcases hm with rfl | rfl | rfl
  · rw [markImport_normalMark]
    simp only [Except.bind, getMark, mockMark_eq, testMark_eq, normalMark_eq, head_cases,
      List.head?_cons, Option.some.injEq, forall_const]
    by_cases h1 : b = 95 <;> by_cases h2 : b = 64 <;> simp [h1, h2]
  · rw [markImport_mockMark_cons]
    simp [Except.bind, getMark, mockMark_eq, normalMark_eq]
  · rw [markImport_testMark_cons]
    simp [Except.bind, getMark, mockMark_eq, normalMark_eq, testMark_eq]

/-- The amended claim C1 at the identifier `os` and the mock mark. -/
theorem getMark_markImport_witness :
    ((markImport (str "os") mockMark).bind getMark = .ok mockMark ↔
      (mockMark = normalMark → startsWithMark (str "os") = false)) :=
  getMark_markImport (str "os") mockMark (by decide) (by decide)

/-- Claim C2 fails as stated: `math` and `path` have the same mock encoding `_ath`, and the
identifier `_ath` encoded as normal equals `math` encoded as mock. -/
theorem markImport_collision_counterexample :
    (markImport (str "math") mockMark = markImport (str "path") mockMark ∧
      str "math" ≠ str "path") ∧
    (markImport (str "_ath") normalMark = markImport (str "math") mockMark ∧
      normalMark ≠ mockMark) := by
  decide

/-- What the collision of `math` and `path` does to `wantToProcess`: both imports are mapped
to the label `_ath`, which is one worklist entry and one rewrite rule; the rule is
`_ath -> path` when the range over the names map visits `math` first and `_ath -> math`
when it visits `path` first. -/
theorem wantToProcess_math_path :
    (wantToProcess [] true mathPathImports mathPathContext).map
        (fun r => (r.1, r.2.processed, r.2.importRewrites)) =
      .ok ([(str "math", str "_ath"), (str "path", str "_ath")], [(str "_ath", false)],
        [(str "_ath", str "path")]) ∧
    (wantToProcess [1] true mathPathImports mathPathContext).map
        (fun r => (r.1, r.2.processed, r.2.importRewrites)) =
      .ok ([(str "math", str "_ath"), (str "path", str "_ath")], [(str "_ath", false)],
        [(str "_ath", str "math")]) :=
  ⟨rfl, rfl⟩

/-- Claim C2, as amended: for non-empty identifiers and marks among normal, mock and test,
`markImport A v1 = markImport B v2` holds exactly when both marks are normal and `A = B`;
or the two marks are the same mock or test mark and `A` and `B` agree from the second
byte on; or one mark is normal, the other is mock or test, and the identifier encoded as
normal is the byte of the other mark followed by the other identifier from its second
byte on. -/
theorem markImport_eq_iff (A B : GoString) (v1 v2 : mark)
    (hA : A ≠ []) (hB : B ≠ [])
    (h1 : v1 = normalMark ∨ v1 = mockMark ∨ v1 = testMark)
    (h2 : v2 = normalMark ∨ v2 = mockMark ∨ v2 = testMark) :
    markImport A v1 = markImport B v2 ↔
      (v1 = normalMark ∧ v2 = normalMark ∧ A = B) ∨
      (v1 ≠ normalMark ∧ v2 = v1 ∧ A.tail = B.tail) ∨
      (v1 = normalMark ∧ v2 ≠ normalMark ∧ A = v2 ++ B.tail) ∨
      (v1 ≠ normalMark ∧ v2 = normalMark ∧ B = v1 ++ A.tail) := by
  obtain ⟨a, as, rfl⟩ := List.exists_cons_of_ne_nil hA
  obtain ⟨b, bs, rfl⟩ := List.exists_cons_of_ne_nil hB
  rcases h1 with rfl | rfl | rfl <;> rcases h2 with rfl | rfl | rfl <;>
    simp only [markImport_normalMark, markImport_mockMark_cons, markImport_testMark_cons,
      Except.ok.injEq, List.cons.injEq, List.tail_cons] <;>
    simp [normalMark_eq, mockMark_eq, testMark_eq] <;>
    tauto

/-- The amended claim C2 at `math` and `path`, whose mock encodings are equal because the
two identifiers agree from the second byte on, and at `os` under the mock and the test
mark, whose encodings differ. -/
theorem markImport_eq_iff_witness :
    markImport (str "math") mockMark = markImport (str "path") mockMark ∧
      markImport (str "os") mockMark ≠ markImport (str "os") testMark :=
  ⟨(markImport_eq_iff (str "math") (str "path") mockMark mockMark
      (by decide) (by decide) (by decide) (by decide)).2 (by decide),
    fun h => absurd ((markImport_eq_iff (str "os") (str "os") mockMark testMark
      (by decide) (by decide) (by decide) (by decide)).1 h) (by decide)⟩

/-- Claim C9 fails as stated: on the empty identifier `markImport` panics for the mock mark,
which is a recognized mark. -/
theorem markImport_panics_counterexample :
    markImport (str "") mockMark = .error Panic.sliceBounds ∧ recognized mockMark := by
  decide

/-- Claim C9, as amended: `markImport name m` panics exactly when `m` is none of the four
recognized marks, or `name` is empty and `m` is the mock or the test mark (the slice
`name[1:]`); in every other case it returns a scratch identifier. -/
theorem markImport_panics_iff (name : GoString) (m : mark) :
    ((∃ p, markImport name m = .error p) ↔
      (¬ recognized m ∨ (name = [] ∧ (m = mockMark ∨ m = testMark)))) ∧
    ((∃ label, markImport name m = .ok label) ↔
      (recognized m ∧ (name = [] → m = noMark ∨ m = normalMark))) := by
  have key : (∃ p, markImport name m = .error p) ↔
      (¬ recognized m ∨ (name = [] ∧ (m = mockMark ∨ m = testMark))) := by
    unfold markImport recognized
    by_cases h1 : m = noMark ∨ m = normalMark
    · have : ¬ (m = mockMark ∨ m = testMark) := by
        rcases h1 with rfl | rfl <;> decide
      simp only [h1, if_true]
      constructor
      · rintro ⟨p, hp⟩; cases hp
      · rintro (h | ⟨_, h⟩)
        · exact absurd (by tauto) h
        · exact absurd h this
    · simp only [h1, if_false]
      by_cases h2 : m = mockMark ∨ m = testMark
      · simp only [h2, if_true]
        cases name with
        | nil => simp
        | cons b rest => simp
      · simp only [h2, if_false]
        constructor
        · intro _; left; tauto
        · intro _; exact ⟨_, rfl⟩
  refine ⟨key, ?_⟩
  have hdisj : ¬ ((m = noMark ∨ m = normalMark) ∧ (m = mockMark ∨ m = testMark)) := by
    rintro ⟨h1 | h1, h2 | h2⟩ <;> rw [h1] at h2 <;> exact absurd h2 (by decide)
  constructor
  · rintro ⟨label, hl⟩
    have hne : ¬ ∃ p, markImport name m = .error p := by
      rintro ⟨p, hp⟩; rw [hl] at hp; cases hp
    rw [key, not_or, not_and] at hne
    refine ⟨not_not.1 hne.1, fun hn => ?_⟩
    have h2 := hne.2 hn
    rcases not_not.1 hne.1 with h | h | h | h
    · exact Or.inl h
    · exact Or.inr h
    · exact absurd (Or.inl h) h2
    · exact absurd (Or.inr h) h2
  · rintro ⟨hr, hn⟩
    cases hm : markImport name m with
    | ok label => exact ⟨label, rfl⟩
    | error p =>
      exfalso
      rcases key.1 ⟨p, hm⟩ with h | ⟨h1, h2⟩
      · exact h hr
      · exact hdisj ⟨hn h1, h2⟩


namespace GoMap
variable {V : Type}

theorem get?_set (m : GoMap V) (k k' : GoString) (v : V) :
    (m.set k v).get? k' = if k = k' then some v else m.get? k' := by
  induction m with
  | nil => simp [set, get?]
  | cons p m ih =>
    obtain ⟨a, b⟩ := p
    by_cases h : a = k
    · subst h
      by_cases h' : a = k' <;> simp [set, get?, h']
    · by_cases h' : a = k'
      · subst h'
        have : ¬ k = a := fun e => h e.symm
        simp [set, get?, h, this]
      · simp [set, get?, h, h', ih]

theorem mem_keys_iff (m : GoMap V) (k : GoString) : k ∈ m.keys ↔ m.get? k ≠ none := by
  induction m with
  | nil => simp [keys, get?]
  | cons p m ih =>
    obtain ⟨a, b⟩ := p
    by_cases h : a = k
    · simp [keys, get?, h]
    · have h' : ¬ k = a := fun e => h e.symm
      simp only [keys, List.map_cons, List.mem_cons, h', false_or, get?, h, if_false]
      exact ih

theorem mem_of_get? (m : GoMap V) (k : GoString) (v : V) (h : m.get? k = some v) :
    (k, v) ∈ m := by
  induction m with
  | nil => simp [get?] at h
  | cons p m ih =>
    obtain ⟨a, b⟩ := p
    by_cases h' : a = k
    · simp [get?, h'] at h
      simp [h', h]
    · simp [get?, h'] at h
      exact List.mem_cons_of_mem _ (ih h)

theorem mem_set (m : GoMap V) (k : GoString) (v : V) (p : GoString × V)
    (h : p ∈ m.set k v) : p = (k, v) ∨ p ∈ m := by
  induction m with
  | nil => simp [set] at h; exact Or.inl h
  | cons q m ih =>
    obtain ⟨a, b⟩ := q
    by_cases h' : a = k
    · simp [set, h'] at h
      rcases h with h | h
      · exact Or.inl h
      · exact Or.inr (List.mem_cons_of_mem _ h)
    · simp [set, h'] at h
      rcases h with h | h
      · exact Or.inr (by simp [h])
      · rcases ih h with h | h
        · exact Or.inl h
        · exact Or.inr (List.mem_cons_of_mem _ h)

theorem get?_eq_none_of_not_mem (m : GoMap V) (k : GoString)
    (h : ∀ p ∈ m, p.1 ≠ k) : m.get? k = none := by
  by_contra hne
  have := (mem_keys_iff m k).2 hne
  simp only [keys, List.mem_map] at this
  obtain ⟨p, hp, rfl⟩ := this
  exact h p hp rfl

end GoMap

theorem get?_addLabel (P : GoMap Bool) (l k : GoString) :
    (addLabel P l).get? k =
      if l = k then some (hasSuffix k (str "/_mocks_") || P.getD k false) else P.get? k := by
  unfold addLabel
  by_cases hs : hasSuffix l (str "/_mocks_") = true
  · by_cases h : l = k
    · subst h; simp [hs, GoMap.get?_set]
    · simp [hs, GoMap.get?_set, h]
  · by_cases h : l = k
    · subst h; simp [hs, GoMap.get?_set]
    · simp [hs, GoMap.get?_set, h]

theorem get?_addAll (ls : List GoString) (P : GoMap Bool) (k : GoString) :
    (addAll P ls).get? k =
      if k ∈ ls then some (hasSuffix k (str "/_mocks_") || P.getD k false) else P.get? k := by
  induction ls generalizing P with
  | nil => simp [addAll]
  | cons l ls ih =>
    have : addAll P (l :: ls) = addAll (addLabel P l) ls := rfl
    rw [this, ih]
    by_cases h : l = k
    · subst h
      by_cases h' : l ∈ ls
      · simp [h', GoMap.getD, get?_addLabel]
      · simp [h', GoMap.getD, get?_addLabel]
    · have h2 : ¬ k = l := fun e => h e.symm
      by_cases h' : k ∈ ls
      · simp [h', h2, GoMap.getD, get?_addLabel, h]
      · simp [h', h2, GoMap.getD, get?_addLabel, h]

theorem wantToProcess_scan_eq (mockAllowed : Bool) (std : GoMap Bool)
    (imports : List (GoString × Bool)) (names : GoMap GoString) (P : GoMap Bool) :
    wantToProcess_scan mockAllowed std imports names P =
      match labelsOf mockAllowed std imports with
      | .error p => .error p
      | .ok pairs => .ok (GoMap.setMany names pairs, addAll P (pairs.map Prod.snd)) := by
  induction imports generalizing names P with
  | nil => simp [wantToProcess_scan, labelsOf, GoMap.setMany, addAll]
  | cons i rest ih =>
    obtain ⟨name, mock⟩ := i
    simp only [wantToProcess_scan, markImport_normalMark, labelsOf, labelOf]
    cases hl : (if (mock && mockAllowed && std.getD name false) = true
        then markImport name mockMark else Except.ok name) with
    | error p => simp
    | ok label =>
      simp only [ih]
      cases hr : labelsOf mockAllowed std rest with
      | error p => simp
      | ok ls => simp [GoMap.setMany, addAll, addLabel]

theorem labelsOf_false (std : GoMap Bool) (imports : List (GoString × Bool)) :
    labelsOf false std imports = .ok (imports.map (fun i => (i.1, i.1))) := by
  induction imports with
  | nil => rfl
  | cons i rest ih => simp [labelsOf, labelOf, ih]

theorem mem_labelsOf (mockAllowed : Bool) (std : GoMap Bool) (imports : List (GoString × Bool))
    (pairs : List (GoString × GoString)) (h : labelsOf mockAllowed std imports = .ok pairs)
    (p : GoString × GoString) :
    p ∈ pairs ↔ ∃ i ∈ imports, i.1 = p.1 ∧ labelOf mockAllowed std i = .ok p.2 := by
  induction imports generalizing pairs with
  | nil => simp [labelsOf] at h; subst h; simp
  | cons i rest ih =>
    simp only [labelsOf] at h
    cases hl : labelOf mockAllowed std i with
    | error e => simp [hl] at h
    | ok l =>
      cases hr : labelsOf mockAllowed std rest with
      | error e => simp [hl, hr] at h
      | ok ls =>
        simp [hl, hr] at h
        subst h
        simp only [List.mem_cons, ih ls hr]
        constructor
        · rintro (rfl | ⟨j, hj, h1, h2⟩)
          · exact ⟨i, Or.inl rfl, rfl, hl⟩
          · exact ⟨j, Or.inr hj, h1, h2⟩
        · rintro ⟨j, (rfl | hj), h1, h2⟩
          · left
            rw [hl] at h2
            cases h2
            cases p; simp_all
          · exact Or.inr ⟨j, hj, h1, h2⟩

theorem keys_labelsOf (mockAllowed : Bool) (std : GoMap Bool) (imports : List (GoString × Bool))
    (pairs : List (GoString × GoString)) (h : labelsOf mockAllowed std imports = .ok pairs) :
    pairs.map Prod.fst = imports.map Prod.fst := by
  induction imports generalizing pairs with
  | nil => simp [labelsOf] at h; subst h; simp
  | cons i rest ih =>
    simp only [labelsOf] at h
    cases hl : labelOf mockAllowed std i with
    | error e => simp [hl] at h
    | ok l =>
      cases hr : labelsOf mockAllowed std rest with
      | error e => simp [hl, hr] at h
      | ok ls =>
        simp [hl, hr] at h
        subst h
        simp [ih ls hr]

namespace GoMap
variable {V : Type}

theorem get?_setMany (kvs : List (GoString × V)) (m : GoMap V) (k : GoString) :
    (m.setMany kvs).get? k = m.get? k ∨ ∃ v, (k, v) ∈ kvs ∧ (m.setMany kvs).get? k = some v := by
  induction kvs generalizing m with
  | nil => left; rfl
  | cons p kvs ih =>
    have e : m.setMany (p :: kvs) = (m.set p.1 p.2).setMany kvs := rfl
    rw [e]
    rcases ih (m.set p.1 p.2) with h | ⟨v, hv, h⟩
    · rw [h, get?_set]
      by_cases hk : p.1 = k
      · right
        refine ⟨p.2, ?_, by simp [hk]⟩
        rw [← hk]; exact List.mem_cons_self _ _
      · left; simp [hk]
    · right; exact ⟨v, List.mem_cons_of_mem _ hv, h⟩

theorem mem_setMany (kvs : List (GoString × V)) (m : GoMap V) (p : GoString × V)
    (h : p ∈ m.setMany kvs) : p ∈ m ∨ p ∈ kvs := by
  induction kvs generalizing m with
  | nil => left; exact h
  | cons q kvs ih =>
    have e : m.setMany (q :: kvs) = (m.set q.1 q.2).setMany kvs := rfl
    rw [e] at h
    rcases ih _ h with h | h
    · rcases mem_set _ _ _ _ h with h | h
      · right; rw [h]; exact List.mem_cons_self _ _
      · left; exact h
    · right; exact List.mem_cons_of_mem _ h

end GoMap

theorem wantToProcess_prune_fst (l : List (GoString × GoString)) (names rw : GoMap GoString) :
    (wantToProcess_prune l names rw).1 =
      names.filter (fun p => !(l.any (fun q => q.1 == q.2 && q.1 == p.1))) := by
  induction l generalizing names rw with
  | nil => simp [wantToProcess_prune]
  | cons q l ih =>
    obtain ⟨orig, marked⟩ := q
    by_cases h : orig = marked
    · subst h
      simp only [wantToProcess_prune, if_true, ih, GoMap.delete, List.filter_filter]
      congr 1
      funext p
      by_cases hp : orig = p.1
      · simp [hp]
      · have e1 : (p.1 == orig) = false := beq_eq_false_iff_ne.2 (fun e => hp e.symm)
        have e2 : (orig == p.1) = false := beq_eq_false_iff_ne.2 hp
        simp [e1, e2]
    · simp only [wantToProcess_prune, h, if_false, ih]
      congr 1
      funext p
      simp [h]

theorem wantToProcess_prune_snd (l : List (GoString × GoString)) (names rw : GoMap GoString) :
    (wantToProcess_prune l names rw).2 =
      rw.setMany ((l.filter (fun q => !(q.1 == q.2))).map (fun q => (q.2, q.1))) := by
  induction l generalizing names rw with
  | nil => simp [wantToProcess_prune, GoMap.setMany]
  | cons q l ih =>
    obtain ⟨orig, marked⟩ := q
    by_cases h : orig = marked
    · subst h
      simp [wantToProcess_prune, ih]
    · simp [wantToProcess_prune, h, ih, GoMap.setMany]

theorem pickAt_perm {α : Type} (i : Nat) (x : α) (xs : List α) :
    ((pickAt i x xs).1 :: (pickAt i x xs).2).Perm (x :: xs) := by
  induction i generalizing x xs with
  | zero => exact List.Perm.refl _
  | succ i ih =>
    cases xs with
    | nil => exact List.Perm.refl _
    | cons y ys =>
      simp only [pickAt]
      exact (List.Perm.swap _ _ _).trans (List.Perm.cons x (ih y ys))

theorem rangeOrder_perm {α : Type} (order : List Nat) (l : List α) :
    (rangeOrder order l).Perm l := by
  induction order generalizing l with
  | nil => cases l <;> exact List.Perm.refl _
  | cons i rest ih =>
    cases l with
    | nil => exact List.Perm.refl _
    | cons x xs =>
      simp only [rangeOrder]
      exact (List.Perm.cons _ (ih _)).trans (pickAt_perm i x xs)

theorem mem_rangeOrder {α : Type} (order : List Nat) (l : List α) (a : α) :
    a ∈ rangeOrder order l ↔ a ∈ l :=
  (rangeOrder_perm order l).mem_iff

theorem wantToProcess_eq (order : List Nat) (mockAllowed : Bool) (imports : GoMap Bool)
    (c : Context) :
    wantToProcess order mockAllowed imports c =
      match labelsOf mockAllowed c.stdlibImports imports with
      | .error p => .error p
      | .ok pairs =>
        let names := GoMap.setMany [] pairs
        .ok (names.filter
            (fun p => !((rangeOrder order names).any (fun q => q.1 == q.2 && q.1 == p.1))),
          { c with
            processed := addAll c.processed (pairs.map Prod.snd)
            importRewrites := c.importRewrites.setMany
              (((rangeOrder order names).filter (fun q => !(q.1 == q.2))).map
                (fun q => (q.2, q.1))) }) := by
  unfold wantToProcess
  rw [wantToProcess_scan_eq]
  cases labelsOf mockAllowed c.stdlibImports imports with
  | error p => rfl
  | ok pairs =>
    simp only [wantToProcess_prune_fst, wantToProcess_prune_snd]

theorem setMany_identity (pairs : List (GoString × GoString)) (m : GoMap GoString)
    (hm : ∀ p ∈ m, p.1 = p.2) (hp : ∀ p ∈ pairs, p.1 = p.2) :
    ∀ p ∈ m.setMany pairs, p.1 = p.2 := by
  intro p h
  rcases GoMap.mem_setMany _ _ _ h with h | h
  · exact hm p h
  · exact hp p h

/-- The call `wantToProcess(false, imports)` in closed form, whatever the order of the
range over the names map. -/
theorem wantToProcess_false_eq (order : List Nat) (imports : GoMap Bool) (c : Context) :
    wantToProcess order false imports c =
      .ok ([], { c with processed := addAll c.processed (imports.map Prod.fst) }) := by
  rw [wantToProcess_eq, labelsOf_false]
  have hid : ∀ p ∈ GoMap.setMany ([] : GoMap GoString) (imports.map (fun i => (i.1, i.1))),
      p.1 = p.2 := by
    apply setMany_identity
    · simp
    · simp
  simp only [List.map_map]
  have h1 : (GoMap.setMany ([] : GoMap GoString) (imports.map (fun i => (i.1, i.1)))).filter
      (fun p => !((rangeOrder order (GoMap.setMany ([] : GoMap GoString)
        (imports.map (fun i => (i.1, i.1))))).any (fun q => q.1 == q.2 && q.1 == p.1))) =
      [] := by
    rw [List.filter_eq_nil_iff]
    intro p hp
    simp only [Bool.not_eq_true', Bool.not_eq_false, List.any_eq_true]
    exact ⟨p, (mem_rangeOrder _ _ _).2 hp, by simp [hid p hp]⟩
  have h2 : (rangeOrder order (GoMap.setMany ([] : GoMap GoString)
      (imports.map (fun i => (i.1, i.1))))).filter (fun q => !(q.1 == q.2)) = [] := by
    rw [List.filter_eq_nil_iff]
    intro p hp
    simp [hid p ((mem_rangeOrder _ _ _).1 hp)]
  rw [h1, h2]
  simp [GoMap.setMany, Function.comp_def]

theorem GoMap.value_unique {V : Type} (m : GoMap V) (h : m.keys.Nodup) (k : GoString) (v v' : V)
    (h1 : (k, v) ∈ m) (h2 : (k, v') ∈ m) : v = v' := by
  induction m with
  | nil => simp at h1
  | cons p m ih =>
    simp only [GoMap.keys, List.map_cons, List.nodup_cons, List.mem_map, not_exists, not_and] at h
    rcases List.mem_cons.1 h1 with e1 | e1 <;> rcases List.mem_cons.1 h2 with e2 | e2
    · rw [← e1] at e2; exact (Prod.mk.inj e2).2.symm
    · exact absurd (by rw [← e1]) (h.1 _ e2)
    · exact absurd (by rw [← e2]) (h.1 _ e1)
    · exact ih h.2 e1 e2

/-- Claim C7: for every context and every import map, whatever mock flags it carries and
whatever the order of the range over the names map, `wantToProcess(false, imports)`
returns the empty names map, leaves `importRewrites`
unchanged, and every key of the worklist afterwards is a key it had before or an identifier
of `imports` itself, unmarked; each such identifier is a key afterwards. -/
theorem wantToProcess_false_no_mock (order : List Nat) (imports : GoMap Bool)
    (c : Context) :
    ∃ c', wantToProcess order false imports c = .ok ([], c') ∧
      c'.importRewrites = c.importRewrites ∧
      (∀ k, k ∈ c'.processed.keys → k ∈ c.processed.keys ∨ k ∈ imports.keys) ∧
      (∀ k ∈ imports.keys, k ∈ c'.processed.keys) := by
  refine ⟨_, wantToProcess_false_eq order imports c, rfl, ?_, ?_⟩
  · intro k hk
    simp only [GoMap.mem_keys_iff, get?_addAll] at hk ⊢
    by_cases h : k ∈ imports.map Prod.fst
    · right
      have : k ∈ imports.keys := h
      rwa [GoMap.mem_keys_iff] at this
    · left; simpa [h] using hk
  · intro k hk
    have h : k ∈ imports.map Prod.fst := hk
    simp [GoMap.mem_keys_iff, get?_addAll, h]

/-- Claim C6, as amended: when `wantToProcess` returns, in whatever order it ranges over
the names map, an import `X` whose label is `X` itself
has no entry in the returned names map, and the rewrite map gets an entry keyed by `X` only
when `X` is also the label of a different import `Y` of the same call, the entry being
`X -> Y`; every returned pair has a label different from its identifier and is the label
computed for an import; every pair now in the rewrite map was there before or maps the label
of an import to that import, the two being different. -/
theorem wantToProcess_minimal (order : List Nat) (mockAllowed : Bool) (imports : GoMap Bool)
    (c c' : Context) (names : GoMap GoString) (hnodup : imports.keys.Nodup)
    (h : wantToProcess order mockAllowed imports c = .ok (names, c')) :
    (∀ X mock, (X, mock) ∈ imports →
      labelOf mockAllowed c.stdlibImports (X, mock) = .ok X →
        names.get? X = none ∧
        (c'.importRewrites.get? X = c.importRewrites.get? X ∨
          ∃ Y mock', Y ≠ X ∧ (Y, mock') ∈ imports ∧
            labelOf mockAllowed c.stdlibImports (Y, mock') = .ok X ∧
            c'.importRewrites.get? X = some Y)) ∧
    (∀ p ∈ names, p.1 ≠ p.2 ∧
      ∃ mock, (p.1, mock) ∈ imports ∧
        labelOf mockAllowed c.stdlibImports (p.1, mock) = .ok p.2) ∧
    (∀ k o, c'.importRewrites.get? k = some o →
      c.importRewrites.get? k = some o ∨
        (o ≠ k ∧ ∃ mock, (o, mock) ∈ imports ∧
          labelOf mockAllowed c.stdlibImports (o, mock) = .ok k)) := by
  rw [wantToProcess_eq] at h
  cases hl : labelsOf mockAllowed c.stdlibImports imports with
  | error p => simp [hl] at h
  | ok pairs =>
    simp only [hl, Except.ok.injEq, Prod.mk.injEq] at h
    obtain ⟨hn, hc⟩ := h
    have hpairs : ∀ p ∈ GoMap.setMany ([] : GoMap GoString) pairs,
        ∃ mock, (p.1, mock) ∈ imports ∧
          labelOf mockAllowed c.stdlibImports (p.1, mock) = .ok p.2 := by
      intro p hp
      rcases GoMap.mem_setMany _ _ _ hp with hp | hp
      · simp at hp
      · obtain ⟨i, hi, h1, h2⟩ := (mem_labelsOf _ _ _ _ hl p).1 hp
        refine ⟨i.2, ?_, ?_⟩
        · rw [← h1]; exact hi
        · rw [← h1]; exact h2
    have hnames : ∀ p ∈ names, p.1 ≠ p.2 ∧ p ∈ GoMap.setMany ([] : GoMap GoString) pairs := by
      intro p hp
      rw [← hn, List.mem_filter] at hp
      obtain ⟨hp1, hp2⟩ := hp
      refine ⟨?_, hp1⟩
      intro e
      simp only [Bool.not_eq_true', List.any_eq_false, Bool.and_eq_true, beq_iff_eq,
        not_and] at hp2
      exact hp2 p ((mem_rangeOrder _ _ _).2 hp1) e rfl
    have hrw : ∀ k o, c'.importRewrites.get? k = some o →
        c.importRewrites.get? k = some o ∨
          (o ≠ k ∧ ∃ mock, (o, mock) ∈ imports ∧
            labelOf mockAllowed c.stdlibImports (o, mock) = .ok k) := by
      intro k o hk
      rw [← hc] at hk
      simp only at hk
      rcases GoMap.get?_setMany _ c.importRewrites k with e | ⟨v, hv, e⟩
      · left; rw [← e]; exact hk
      · right
        rw [e] at hk
        cases hk
        simp only [List.mem_map, List.mem_filter, Bool.not_eq_true', beq_eq_false_iff_ne,
          Prod.mk.injEq] at hv
        obtain ⟨q, ⟨hq1, hq2⟩, rfl, rfl⟩ := hv
        exact ⟨hq2, hpairs q ((mem_rangeOrder _ _ _).1 hq1)⟩
    refine ⟨?_, ?_, hrw⟩
    · intro X mock hX hlX
      constructor
      · apply GoMap.get?_eq_none_of_not_mem
        intro p hp e
        obtain ⟨hne, hmem⟩ := hnames p hp
        obtain ⟨mock', hi, hl'⟩ := hpairs p hmem
        rw [e] at hi hl'
        have := GoMap.value_unique imports hnodup X mock mock' hX hi
        subst this
        rw [hlX] at hl'
        cases hl'
        exact hne e
      · cases hX' : c'.importRewrites.get? X with
        | none =>
          left
          cases hX0 : c.importRewrites.get? X with
          | none => rfl
          | some o =>
            exfalso
            rcases GoMap.get?_setMany
              (((rangeOrder order (GoMap.setMany ([] : GoMap GoString) pairs)).filter
                (fun q => !(q.1 == q.2))).map (fun q => (q.2, q.1))) c.importRewrites X
              with e | ⟨v, _, e⟩
            · rw [← hc] at hX'; simp only at hX'; rw [e, hX0] at hX'; cases hX'
            · rw [← hc] at hX'; simp only at hX'; rw [e] at hX'; cases hX'
        | some o =>
          rcases hrw X o hX' with e | ⟨hne, mock', hi, hl'⟩
          · left; rw [e]
          · right; exact ⟨o, mock', hne, hi, hl', rfl⟩
    · intro p hp
      exact ⟨(hnames p hp).1, hpairs p (hnames p hp).2⟩

theorem addAll_nil (P : GoMap Bool) : addAll P [] = P := rfl

theorem processEntry_eq (env : Env) (imports : GoMap Bool) (s : State) (label : GoString) :
    processEntry env imports s label =
      (⟨{ s.c with processed :=
            processedAfter s.c.processed label (dispatch env imports s.c label).2 },
          s.trace ++ (dispatch env imports s.c label).1, s.visited ++ [label]⟩,
        stepResult (dispatch env imports s.c label).2) := by
  unfold processEntry dispatch
  simp only [resolve]
  generalize (match s.c.importRewrites.get? label with
    | some n => (n, true)
    | none => (label, imports.getD label false)) = nm
  obtain ⟨name, mock⟩ := nm
  simp only
  by_cases hex : s.c.excludes.getD name false = true
  · simp only [hex, if_true]
    cases (LinkPkg env s.c.goPath s.c.tmpPath name).2 <;>
      simp [processedAfter, stepResult, addAll_nil]
  · simp only [hex, if_false]
    by_cases hstd : s.c.stdlibImports.getD name false = true
    · simp only [hstd, if_true]
      cases mock
      · simp [processedAfter, stepResult, addAll_nil]
      · simp only [if_true]
        cases (MockStandard env s.c.goRoot s.c.tmpPath name (s.c.cfg name)).2 <;>
          simp [processedAfter, stepResult, addAll_nil]
    · simp only [hstd, if_false]
      cases hasNonGoCode env name with
      | error e => simp [processedAfter, stepResult]
      | ok nonGo =>
        cases nonGo
        · simp only [Bool.false_eq_true, if_false]
          cases (GenPkg env s.c.goPath s.c.tmpPath name mock (s.c.cfg name)).2 <;>
            simp [processedAfter, stepResult, extendWorklist, wantToProcess_false_eq, GoMap.keys]
        · simp only [if_true]
          cases mock
          · simp only [Bool.false_eq_true, if_false]
            cases (LinkPkg env s.c.goPath s.c.tmpPath name).2 <;>
              simp [processedAfter, stepResult, extendWorklist, wantToProcess_false_eq,
                GoMap.keys]
          · simp [processedAfter, stepResult]

theorem step_ok {env : Env} {imports : GoMap Bool} {s s1 : State} {l : GoString}
    (h : processEntry env imports s l = (s1, .ok ())) :
    ∃ ns, (dispatch env imports s.c l).2 = .ok ns ∧
      s1 = ⟨{ s.c with processed := addAll (s.c.processed.set l true) ns },
        s.trace ++ (dispatch env imports s.c l).1, s.visited ++ [l]⟩ := by
  rw [processEntry_eq] at h
  cases hd : (dispatch env imports s.c l).2 with
  | error a => simp [hd, stepResult] at h
  | ok ns =>
    refine ⟨ns, rfl, ?_⟩
    simp only [hd, processedAfter, stepResult, Prod.mk.injEq, and_true] at h
    exact h.symm

theorem get?_after (P : GoMap Bool) (l : GoString) (ns : List GoString) (k : GoString) :
    (addAll (P.set l true) ns).get? k =
      if k ∈ ns then some (hasSuffix k (str "/_mocks_") || (if l = k then true else P.getD k false))
      else if l = k then some true else P.get? k := by
  rw [get?_addAll]
  by_cases h : l = k <;> simp [GoMap.getD, GoMap.get?_set, h]

section stepFacts
variable (P : GoMap Bool) (l : GoString) (ns : List GoString)

theorem after_true (k : GoString) (h : P.get? k = some true) :
    (addAll (P.set l true) ns).get? k = some true := by
  rw [get?_after]
  by_cases h1 : k ∈ ns <;> by_cases h2 : l = k <;> simp [h1, h2, h, GoMap.getD]

theorem after_self : (addAll (P.set l true) ns).get? l = some true := by
  rw [get?_after]
  by_cases h1 : l ∈ ns <;> simp [h1]

theorem after_keys (k : GoString) (h : P.get? k ≠ none) :
    (addAll (P.set l true) ns).get? k ≠ none := by
  rw [get?_after]
  by_cases h1 : k ∈ ns <;> by_cases h2 : l = k <;> simp [h1, h2, h]

theorem after_mem (k : GoString) (h : k ∈ ns) :
    (addAll (P.set l true) ns).get? k ≠ none := by
  rw [get?_after]
  simp [h]

theorem after_true_inv (k : GoString) (h : (addAll (P.set l true) ns).get? k = some true) :
    P.get? k = some true ∨ k = l ∨ hasSuffix k (str "/_mocks_") = true := by
  rw [get?_after] at h
  by_cases h2 : l = k
  · right; left; exact h2.symm
  · by_cases h1 : k ∈ ns
    · simp only [h1, if_true, h2, if_false, Option.some.injEq, Bool.or_eq_true] at h
      rcases h with h | h
      · right; right; exact h
      · left
        unfold GoMap.getD at h
        cases hk : P.get? k with
        | none => simp [hk] at h
        | some b => simp [hk] at h; rw [h]
    · simp only [h1, if_false, h2] at h
      left; exact h

theorem after_false (k : GoString) (h : (addAll (P.set l true) ns).get? k = some false) :
    k ≠ l ∧ (P.get? k = some false ∨
      (P.get? k = none ∧ k ∈ ns ∧ hasSuffix k (str "/_mocks_") = false)) := by
  rw [get?_after] at h
  by_cases h2 : l = k
  · by_cases h1 : k ∈ ns <;> simp [h1, h2] at h
  · refine ⟨fun e => h2 e.symm, ?_⟩
    by_cases h1 : k ∈ ns
    · simp only [h1, if_true, h2, if_false, Option.some.injEq, Bool.or_eq_false_iff] at h
      unfold GoMap.getD at h
      cases hk : P.get? k with
      | none => right; exact ⟨rfl, h1, h.1⟩
      | some b => simp [hk] at h; left; rw [h.2]
    · simp only [h1, if_false, h2] at h
      left; exact h

theorem after_mocksDone (h : mocksDone P) : mocksDone (addAll (P.set l true) ns) := by
  intro k hk hf
  rcases after_false P l ns k hf with ⟨_, h1 | ⟨_, _, h1⟩⟩
  · exact h k hk h1
  · rw [hk] at h1; cases h1

theorem after_keys_inv (k : GoString) (hl : P.get? l ≠ none)
    (h : (addAll (P.set l true) ns).get? k ≠ none) : P.get? k ≠ none ∨ k ∈ ns := by
  rw [get?_after] at h
  by_cases h1 : k ∈ ns
  · right; exact h1
  · left
    by_cases h2 : l = k
    · rw [← h2]; exact hl
    · simpa [h1, h2] using h

end stepFacts

theorem dispatch_frame (env : Env) (imports : GoMap Bool) (c : Context) (P : GoMap Bool) :
    dispatch env imports { c with processed := P } = dispatch env imports c := rfl

section runFacts
variable {env : Env} {imports : GoMap Bool}

theorem Runs.frame {s s' : State} {V : List GoString} (h : Runs env imports s V s') :
    s'.c = { s.c with processed := s'.c.processed } := by
  induction h with
  | done s => rfl
  | step s s1 s' l V hl hstep _ ih =>
    obtain ⟨ns, _, rfl⟩ := step_ok hstep
    rw [ih]

theorem Runs.dispatch_eq {s s' : State} {V : List GoString} (h : Runs env imports s V s') :
    dispatch env imports s'.c = dispatch env imports s.c := by
  rw [h.frame]; rfl

theorem Runs.trace_eq {s s' : State} {V : List GoString} (h : Runs env imports s V s') :
    s'.trace = s.trace ++ V.flatMap (fun l => (dispatch env imports s.c l).1) ∧
      s'.visited = s.visited ++ V := by
  induction h with
  | done s => simp
  | step s s1 s' l V hl hstep _ ih =>
    obtain ⟨ns, _, rfl⟩ := step_ok hstep
    simp only [dispatch_frame] at ih
    simp [ih]

theorem Runs.mono {s s' : State} {V : List GoString} (h : Runs env imports s V s') :
    (∀ k, s.c.processed.get? k = some true → s'.c.processed.get? k = some true) ∧
      (∀ k, s.c.processed.get? k ≠ none → s'.c.processed.get? k ≠ none) := by
  induction h with
  | done s => exact ⟨fun _ h => h, fun _ h => h⟩
  | step s s1 s' l V hl hstep _ ih =>
    obtain ⟨ns, _, rfl⟩ := step_ok hstep
    exact ⟨fun k hk => ih.1 k (after_true _ _ _ k hk), fun k hk => ih.2 k (after_keys _ _ _ k hk)⟩

theorem Runs.visited_facts {s s' : State} {V : List GoString} (h : Runs env imports s V s') :
    ∀ l ∈ V, s.c.processed.get? l ≠ some true ∧ s'.c.processed.get? l = some true ∧
      ∃ ns, (dispatch env imports s.c l).2 = .ok ns ∧ ∀ n ∈ ns, s'.c.processed.get? n ≠ none := by
  induction h with
  | done s => simp
  | step s s1 s' l V hl hstep hrest ih =>
    obtain ⟨ns, hns, rfl⟩ := step_ok hstep
    simp only [dispatch_frame] at ih
    intro k hk
    rcases List.mem_cons.1 hk with rfl | hk
    · refine ⟨by rw [hl]; simp, hrest.mono.1 _ (after_self _ _ _), ns, hns, ?_⟩
      intro n hn
      exact hrest.mono.2 _ (after_mem _ _ _ n hn)
    · obtain ⟨h1, h2, h3⟩ := ih k hk
      exact ⟨fun e => h1 (after_true _ _ _ k e), h2, h3⟩

theorem Runs.nodup {s s' : State} {V : List GoString} (h : Runs env imports s V s') :
    V.Nodup := by
  induction h with
  | done s => simp
  | step s s1 s' l V hl hstep hrest ih =>
    obtain ⟨ns, hns, rfl⟩ := step_ok hstep
    refine List.nodup_cons.2 ⟨?_, ih⟩
    intro hmem
    exact (hrest.visited_facts l hmem).1 (after_self _ _ _)

theorem Runs.true_inv {s s' : State} {V : List GoString} (h : Runs env imports s V s') :
    ∀ k, s'.c.processed.get? k = some true →
      s.c.processed.get? k = some true ∨ k ∈ V ∨ hasSuffix k (str "/_mocks_") = true := by
  induction h with
  | done s => intro k hk; exact Or.inl hk
  | step s s1 s' l V hl hstep hrest ih =>
    obtain ⟨ns, hns, rfl⟩ := step_ok hstep
    intro k hk
    rcases ih k hk with h1 | h1 | h1
    · rcases after_true_inv _ _ _ k h1 with h2 | h2 | h2
      · exact Or.inl h2
      · exact Or.inr (Or.inl (by rw [h2]; exact List.mem_cons_self _ _))
      · exact Or.inr (Or.inr h2)
    · exact Or.inr (Or.inl (List.mem_cons_of_mem _ h1))
    · exact Or.inr (Or.inr h1)

theorem Runs.keys_inv {s s' : State} {V : List GoString} (h : Runs env imports s V s') :
    ∀ k, s'.c.processed.get? k ≠ none →
      s.c.processed.get? k ≠ none ∨
        ∃ l ∈ V, ∃ ns, (dispatch env imports s.c l).2 = .ok ns ∧ k ∈ ns := by
  induction h with
  | done s => intro k hk; exact Or.inl hk
  | step s s1 s' l V hl hstep hrest ih =>
    obtain ⟨ns, hns, rfl⟩ := step_ok hstep
    simp only [dispatch_frame] at ih
    intro k hk
    rcases ih k hk with h1 | ⟨l', hl', ns', h2, h3⟩
    · rcases after_keys_inv _ _ _ k (by rw [hl]; simp) h1 with h2 | h2
      · exact Or.inl h2
      · exact Or.inr ⟨l, List.mem_cons_self _ _, ns, hns, h2⟩
    · exact Or.inr ⟨l', List.mem_cons_of_mem _ hl', ns', h2, h3⟩

theorem Runs.preserves_mocksDone {s s' : State} {V : List GoString} (h : Runs env imports s V s')
    (hinv : mocksDone s.c.processed) :
    mocksDone s'.c.processed ∧ ∀ l ∈ V, hasSuffix l (str "/_mocks_") = false := by
  induction h with
  | done s => exact ⟨hinv, by simp⟩
  | step s s1 s' l V hl hstep hrest ih =>
    obtain ⟨ns, hns, rfl⟩ := step_ok hstep
    obtain ⟨h1, h2⟩ := ih (after_mocksDone _ _ _ hinv)
    refine ⟨h1, ?_⟩
    intro k hk
    rcases List.mem_cons.1 hk with rfl | hk
    · cases hs : hasSuffix k (str "/_mocks_") with
      | false => rfl
      | true => exact absurd hl (hinv k hs)
    · exact h2 k hk

end runFacts

theorem mem_pending (P : GoMap Bool) (k : GoString) :
    k ∈ pending P ↔ P.get? k = some false := by
  unfold pending
  simp only [List.mem_filter, decide_eq_true_eq, GoMap.mem_keys_iff]
  constructor
  · exact fun h => h.2
  · intro h; exact ⟨by rw [h]; simp, h⟩

theorem choose_mem (p : GoString) (ps : List GoString) (i : Nat) :
    choose p ps i ∈ p :: ps := by
  unfold choose
  have hlt : i % (p :: ps).length < (p :: ps).length := Nat.mod_lt _ (by simp)
  rw [List.getD_eq_getElem _ _ hlt]
  exact List.getElem_mem _

section loopFacts
variable {env : Env} {imports : GoMap Bool}

theorem installLoop_runs (choices : List Nat) (s s' : State)
    (h : installLoop env imports choices s = (s', some (.ok ()))) :
    ∃ V, Runs env imports s V s' ∧ pending s'.c.processed = [] := by
  induction choices generalizing s with
  | nil =>
    unfold installLoop at h
    cases hp : pending s.c.processed with
    | nil =>
      simp only [hp, Prod.mk.injEq, and_true] at h
      subst h
      exact ⟨[], Runs.done s, hp⟩
    | cons p ps => simp [hp] at h
  | cons i rest ih =>
    unfold installLoop at h
    cases hp : pending s.c.processed with
    | nil =>
      simp only [hp, Prod.mk.injEq, and_true] at h
      subst h
      exact ⟨[], Runs.done s, hp⟩
    | cons p ps =>
      simp only [hp] at h
      have hmem := choose_mem p ps i
      rw [← hp, mem_pending] at hmem
      cases hstep : processEntry env imports s (choose p ps i) with
      | mk s1 r =>
        cases r with
        | error a => simp [hstep] at h
        | ok u =>
          simp only [hstep] at h
          obtain ⟨V, hV, hdone⟩ := ih s1 h
          exact ⟨_ :: V, Runs.step s s1 s' _ V hmem hstep hV, hdone⟩

/-- Every label a first run dispatches is dispatched by a second, complete run from the same
state, and every key the first run reaches is a key of the second. -/
theorem Runs.subset {imports2 : GoMap Bool} {s s2 : State} {V2 : List GoString}
    (h2 : Runs env imports2 s V2 s2) (hdone : pending s2.c.processed = [])
    {t s1 : State} {V1 : List GoString} (h1 : Runs env imports t V1 s1)
    (hframe : dispatch env imports t.c = dispatch env imports2 s.c)
    (hkeys : ∀ k, t.c.processed.get? k ≠ none → s2.c.processed.get? k ≠ none)
    (hpend : ∀ k, t.c.processed.get? k = some false → k ∈ V2)
    (hmono : ∀ k, s.c.processed.get? k = some true → t.c.processed.get? k = some true) :
    (∀ l ∈ V1, l ∈ V2) ∧ ∀ k, s1.c.processed.get? k ≠ none → s2.c.processed.get? k ≠ none := by
  induction h1 with
  | done t => exact ⟨by simp, hkeys⟩
  | step t t1 s1 l V hl hstep hrest ih =>
    obtain ⟨ns, hns, rfl⟩ := step_ok hstep
    have hlV2 : l ∈ V2 := hpend l hl
    obtain ⟨_, _, ns', hns', hsub⟩ := h2.visited_facts l hlV2
    rw [hframe, hns'] at hns
    cases hns
    have hall_true : ∀ k, s2.c.processed.get? k ≠ none → s2.c.processed.get? k = some true := by
      intro k hk
      cases hv : s2.c.processed.get? k with
      | none => exact absurd hv hk
      | some b =>
        cases b with
        | true => rfl
        | false =>
          have : k ∈ pending s2.c.processed := (mem_pending _ _).2 hv
          rw [hdone] at this
          simp at this
    have := ih (by simp only [dispatch_frame]; exact hframe)
      (by
        intro k hk
        rcases after_keys_inv _ _ _ k (by rw [hl]; simp) hk with h | h
        · exact hkeys k h
        · exact hsub k h)
      (by
        intro k hk
        rcases after_false _ _ _ k hk with ⟨_, h | ⟨hnone, hmem, hsuf⟩⟩
        · exact hpend k h
        · have htrue := hall_true k (hsub k hmem)
          rcases h2.true_inv k htrue with h | h | h
          · have := hmono k h
            rw [hnone] at this
            cases this
          · exact h
          · rw [hsuf] at h; cases h)
      (by
        intro k hk
        exact after_true _ _ _ k (hmono k hk))
    refine ⟨?_, this.2⟩
    intro k hk
    rcases List.mem_cons.1 hk with rfl | hk
    · exact hlV2
    · exact this.1 k hk

theorem all_true_of_done (P : GoMap Bool) (hdone : pending P = []) (k : GoString)
    (hk : P.get? k ≠ none) : P.get? k = some true := by
  cases hv : P.get? k with
  | none => exact absurd hv hk
  | some b =>
    cases b with
    | true => rfl
    | false =>
      have : k ∈ pending P := (mem_pending _ _).2 hv
      rw [hdone] at this
      simp at this

theorem Runs.subset_of_complete {imports2 : GoMap Bool} {t s s1 s2 : State}
    {V1 V2 : List GoString}
    (h1 : Runs env imports t V1 s1) (h2 : Runs env imports2 s V2 s2)
    (hdone : pending s2.c.processed = []) (hinv : mocksDone s.c.processed)
    (hframe : dispatch env imports t.c = dispatch env imports2 s.c)
    (hP : ∀ k, t.c.processed.get? k = s.c.processed.get? k) :
    (∀ l ∈ V1, l ∈ V2) ∧ ∀ k, s1.c.processed.get? k ≠ none → s2.c.processed.get? k ≠ none := by
  refine Runs.subset h2 hdone h1 hframe (fun k hk => h2.mono.2 k (by rw [← hP]; exact hk)) ?_
    (fun k hk => by rw [hP]; exact hk)
  intro k hk
  rw [hP] at hk
  have hk2 : s2.c.processed.get? k = some true :=
    all_true_of_done _ hdone k (h2.mono.2 k (by rw [hk]; simp))
  rcases h2.true_inv k hk2 with h | h | h
  · rw [hk] at h; cases h
  · exact h
  · exact absurd hk (hinv k h)

/-- Two complete runs dispatch the same labels and end with the same worklist when they
start from the same worklist and trace and dispatch every label alike, whatever the layout
of their import and rewrite maps. -/
theorem Runs.confluent {imports2 : GoMap Bool} {t s s1 s2 : State} {V1 V2 : List GoString}
    (h1 : Runs env imports t V1 s1) (h2 : Runs env imports2 s V2 s2)
    (d1 : pending s1.c.processed = []) (d2 : pending s2.c.processed = [])
    (hinv : mocksDone s.c.processed)
    (hframe : dispatch env imports t.c = dispatch env imports2 s.c)
    (hP : ∀ k, t.c.processed.get? k = s.c.processed.get? k)
    (htrace : t.trace = s.trace) (hvisited : t.visited = s.visited) :
    V1.Perm V2 ∧ (∀ k, s1.c.processed.get? k = s2.c.processed.get? k) ∧
      s1.trace.Perm s2.trace ∧ s1.visited.Perm s2.visited ∧
      s1.c.importRewrites = t.c.importRewrites ∧ s2.c.importRewrites = s.c.importRewrites := by
  have hinvt : mocksDone t.c.processed := by
    intro k hk
    rw [hP]
    exact hinv k hk
  obtain ⟨a1, a2⟩ := Runs.subset_of_complete h1 h2 d2 hinv hframe hP
  obtain ⟨b1, b2⟩ := Runs.subset_of_complete h2 h1 d1 hinvt hframe.symm (fun k => (hP k).symm)
  have hperm : V1.Perm V2 :=
    (List.perm_ext_iff_of_nodup h1.nodup h2.nodup).2 (fun l => ⟨a1 l, b1 l⟩)
  refine ⟨hperm, ?_, ?_, ?_, ?_, ?_⟩
  · intro k
    cases hv : s1.c.processed.get? k with
    | none =>
      by_contra hne
      exact b2 k (fun e => hne e.symm) hv
    | some b =>
      have h1k : s1.c.processed.get? k ≠ none := by rw [hv]; simp
      rw [all_true_of_done _ d2 k (a2 k h1k)]
      rw [← hv, all_true_of_done _ d1 k h1k]
  · rw [h1.trace_eq.1, h2.trace_eq.1, hframe, htrace]
    exact List.Perm.append_left _ (List.Perm.flatMap_right _ hperm)
  · rw [h1.trace_eq.2, h2.trace_eq.2, hvisited]
    exact List.Perm.append_left _ hperm
  · rw [h1.frame]
  · rw [h2.frame]

end loopFacts

theorem length_filter_le_of_imp {α : Type} (l : List α) (p q : α → Bool)
    (himp : ∀ x ∈ l, q x = true → p x = true) :
    (l.filter q).length ≤ (l.filter p).length := by
  induction l with
  | nil => simp
  | cons a l ih =>
    have ih' := ih (fun x hx => himp x (List.mem_cons_of_mem _ hx))
    have ha := himp a (List.mem_cons_self _ _)
    cases hq : q a <;> cases hp : p a
    · simp [List.filter, hq, hp, ih']
    · simp [List.filter, hq, hp]; omega
    · rw [hq] at ha; simp [hp] at ha
    · simp [List.filter, hq, hp, ih']

theorem length_filter_lt_of_imp {α : Type} (l : List α) (p q : α → Bool)
    (himp : ∀ x ∈ l, q x = true → p x = true) (x : α) (hx : x ∈ l)
    (hp : p x = true) (hq : q x = false) :
    (l.filter q).length < (l.filter p).length := by
  induction l with
  | nil => simp at hx
  | cons a l ih =>
    have hle := length_filter_le_of_imp l p q (fun y hy => himp y (List.mem_cons_of_mem _ hy))
    rcases List.mem_cons.1 hx with rfl | hx
    · simp [List.filter, hq, hp]; omega
    · have ih' := ih (fun y hy => himp y (List.mem_cons_of_mem _ hy)) hx
      have ha := himp a (List.mem_cons_self _ _)
      cases hqa : q a <;> cases hpa : p a
      · simp [List.filter, hqa, hpa, ih']
      · simp [List.filter, hqa, hpa]; omega
      · rw [hqa] at ha; simp [hpa] at ha
      · simp [List.filter, hqa, hpa, ih']

section termination
variable {env : Env} {imports : GoMap Bool}

theorem installLoop_terminates (U : List GoString) (choices : List Nat) (s : State)
    (hkeys : ∀ k, s.c.processed.get? k ≠ none → k ∈ U)
    (hinv : mocksDone s.c.processed)
    (hclosed : ∀ l ∈ U, hasSuffix l (str "/_mocks_") = false →
      s.c.processed.get? l ≠ some true →
        ∃ ns, (dispatch env imports s.c l).2 = .ok ns ∧ ∀ n ∈ ns, n ∈ U)
    (hfuel : remaining U s.c.processed ≤ choices.length) :
    ∃ s', installLoop env imports choices s = (s', some (.ok ())) := by
  induction choices generalizing s with
  | nil =>
    unfold installLoop
    cases hp : pending s.c.processed with
    | nil => exact ⟨s, rfl⟩
    | cons p ps =>
      exfalso
      have hmem : p ∈ pending s.c.processed := by rw [hp]; exact List.mem_cons_self _ _
      rw [mem_pending] at hmem
      have hU : p ∈ U := hkeys p (by rw [hmem]; simp)
      have : p ∈ U.dedup.filter (fun k => !(s.c.processed.get? k == some true)) := by
        simp [List.mem_filter, hU, hmem]
      have hpos := List.length_pos_of_mem this
      simp only [remaining, List.length_nil] at hfuel
      omega
  | cons i rest ih =>
    unfold installLoop
    cases hp : pending s.c.processed with
    | nil => exact ⟨s, rfl⟩
    | cons p ps =>
      simp only
      have hmem := choose_mem p ps i
      rw [← hp, mem_pending] at hmem
      have hU : choose p ps i ∈ U := hkeys _ (by rw [hmem]; simp)
      have hsuf : hasSuffix (choose p ps i) (str "/_mocks_") = false := by
        cases hs : hasSuffix (choose p ps i) (str "/_mocks_") with
        | false => rfl
        | true => exact absurd hmem (hinv _ hs)
      obtain ⟨ns, hns, hsub⟩ := hclosed _ hU hsuf (by rw [hmem]; simp)
      rw [processEntry_eq]
      simp only [hns, stepResult, processedAfter]
      apply ih
      · intro k hk
        rcases after_keys_inv _ _ _ k (by rw [hmem]; simp) hk with h | h
        · exact hkeys k h
        · exact hsub k h
      · exact after_mocksDone _ _ _ hinv
      · intro l hl hs hnt
        exact hclosed l hl hs (fun e => hnt (after_true _ _ _ l e))
      · have hlt : remaining U (addAll (s.c.processed.set (choose p ps i) true) ns) <
            remaining U s.c.processed := by
          unfold remaining
          apply length_filter_lt_of_imp _ _ _ _ (choose p ps i)
          · exact List.mem_dedup.2 hU
          · simp [hmem]
          · simp [after_self]
          · intro x _ hx
            simp only [Bool.not_eq_true', beq_eq_false_iff_ne, ne_eq] at hx ⊢
            intro e
            exact hx (after_true _ _ _ x e)
        simp only [List.length_cons] at hfuel
        show remaining U (addAll (s.c.processed.set (choose p ps i) true) ns) ≤ rest.length
        omega

end termination

theorem LinkPkg_events (env : Env) (srcPath dstRoot name : GoString) :
    (∀ e ∈ (LinkPkg env srcPath dstRoot name).1, ∃ src dst, e = Event.symlinkPackage src dst) ∧
      ∀ n, (LinkPkg env srcPath dstRoot name).2 ≠ .error (Abort.error (Error.unsupportedMock n)) := by
  unfold LinkPkg
  cases findSrcRoot env name (env.SplitList srcPath) with
  | error p => simp
  | ok srcRoot =>
    by_cases h : srcRoot = str ""
    · simp [h]
    · simp only [h, if_false]
      cases env.symlinkPackage (env.Join [srcRoot, str "src", name])
          (env.Join [dstRoot, str "src", name]) with
      | error msg => simp
      | ok u =>
        cases env.GetImports (env.Join [srcRoot, str "src", name]) false with
        | error msg => simp
        | ok imps => simp

theorem MockStandard_events (env : Env) (srcRoot dstRoot name : GoString) (cfg : MockConfig) :
    ∀ e ∈ (MockStandard env srcRoot dstRoot name cfg).1,
      ∃ label, markImport name mockMark = .ok label ∧
        (e = Event.MkdirAll (env.Join [dstRoot, str "src", label]) ∨
          e = Event.MakePkg (env.Join [srcRoot, str "src/pkg", name])
            (env.Join [dstRoot, str "src", label]) true cfg) := by
  unfold MockStandard
  cases hm : markImport name mockMark with
  | error p => simp
  | ok label =>
    simp only
    cases env.MkdirAll (env.Join [dstRoot, str "src", label]) with
    | error msg => simp
    | ok u =>
      cases env.MakePkg (env.Join [srcRoot, str "src/pkg", name])
          (env.Join [dstRoot, str "src", label]) true cfg with
      | error msg => simp
      | ok imps => simp

/-- Claim C3: exclusion precedence.  Dispatching a worklist entry whose real identifier is
excluded, whatever its mock flag, its host-builtin status and its source, appends to the
trace the call `LinkPkg` of the real identifier and the events of that call, which are
`symlinkPackage` events; no `MockStandard` and no `GenPkg` call is made; the worklist only
has the entry marked processed; the result is that of `LinkPkg` and never the
unsupported-mock error. -/
theorem installImports_exclusion_precedence (env : Env) (imports : GoMap Bool) (s : State)
    (label : GoString)
    (hex : s.c.excludes.getD (resolve s.c imports label).1 false = true) :
    (processEntry env imports s label).1.trace =
        s.trace ++ Event.LinkPkg s.c.goPath s.c.tmpPath (resolve s.c imports label).1 ::
          (LinkPkg env s.c.goPath s.c.tmpPath (resolve s.c imports label).1).1 ∧
      (∀ e ∈ (LinkPkg env s.c.goPath s.c.tmpPath (resolve s.c imports label).1).1,
        ∃ src dst, e = Event.symlinkPackage src dst) ∧
      (processEntry env imports s label).1.c.processed = s.c.processed.set label true ∧
      (processEntry env imports s label).2 =
        (match (LinkPkg env s.c.goPath s.c.tmpPath (resolve s.c imports label).1).2 with
          | .error a => .error a
          | .ok _ => .ok ()) ∧
      ∀ n, (processEntry env imports s label).2 ≠ .error (Abort.error (Error.unsupportedMock n)) := by
  have hd : dispatch env imports s.c label =
      (Event.LinkPkg s.c.goPath s.c.tmpPath (resolve s.c imports label).1 ::
        (LinkPkg env s.c.goPath s.c.tmpPath (resolve s.c imports label).1).1,
        match (LinkPkg env s.c.goPath s.c.tmpPath (resolve s.c imports label).1).2 with
        | .error a => .error a
        | .ok _ => .ok []) := by
    unfold dispatch
    simp only [hex, if_true]
  have hl := LinkPkg_events env s.c.goPath s.c.tmpPath (resolve s.c imports label).1
  rw [processEntry_eq, hd]
  refine ⟨rfl, hl.1, ?_, ?_, ?_⟩
  · cases (LinkPkg env s.c.goPath s.c.tmpPath (resolve s.c imports label).1).2 <;>
      simp [processedAfter, addAll_nil]
  · cases (LinkPkg env s.c.goPath s.c.tmpPath (resolve s.c imports label).1).2 <;>
      simp [stepResult]
  · intro n
    have := hl.2 n
    cases hr : (LinkPkg env s.c.goPath s.c.tmpPath (resolve s.c imports label).1).2 with
    | error a =>
      rw [hr] at this
      simp only [stepResult]
      intro e
      apply this
      cases e
      rfl
    | ok _ => simp [stepResult]

/-- Claim C8: host-builtin policy.  Dispatching an entry that is not excluded and whose real
identifier is a host-builtin does nothing but mark the entry processed when its mock flag
is false; when the flag is true it calls `MockStandard` of the real identifier, whose only
workspace events create and fill the directory `tmpPath/src/markImport(name, mockMark)`.
No `LinkPkg` or `GenPkg` call is made and the worklist is not extended. -/
theorem installImports_builtin_policy (env : Env) (imports : GoMap Bool) (s : State)
    (label : GoString)
    (hex : s.c.excludes.getD (resolve s.c imports label).1 false = false)
    (hstd : s.c.stdlibImports.getD (resolve s.c imports label).1 false = true) :
    ((resolve s.c imports label).2 = false →
      processEntry env imports s label =
        (⟨{ s.c with processed := s.c.processed.set label true }, s.trace,
          s.visited ++ [label]⟩, .ok ())) ∧
    ((resolve s.c imports label).2 = true →
      (processEntry env imports s label).1.trace =
          s.trace ++ Event.MockStandard s.c.goRoot s.c.tmpPath (resolve s.c imports label).1
              (s.c.cfg (resolve s.c imports label).1) ::
            (MockStandard env s.c.goRoot s.c.tmpPath (resolve s.c imports label).1
              (s.c.cfg (resolve s.c imports label).1)).1 ∧
        (∀ e ∈ (MockStandard env s.c.goRoot s.c.tmpPath (resolve s.c imports label).1
              (s.c.cfg (resolve s.c imports label).1)).1,
          ∃ scratch, markImport (resolve s.c imports label).1 mockMark = .ok scratch ∧
            (e = Event.MkdirAll (env.Join [s.c.tmpPath, str "src", scratch]) ∨
              e = Event.MakePkg
                (env.Join [s.c.goRoot, str "src/pkg", (resolve s.c imports label).1])
                (env.Join [s.c.tmpPath, str "src", scratch]) true
                (s.c.cfg (resolve s.c imports label).1))) ∧
        (processEntry env imports s label).1.c.processed = s.c.processed.set label true ∧
        (processEntry env imports s label).2 =
          (MockStandard env s.c.goRoot s.c.tmpPath (resolve s.c imports label).1
            (s.c.cfg (resolve s.c imports label).1)).2) := by
  constructor
  · intro hm
    have hd : dispatch env imports s.c label = ([], .ok []) := by
      unfold dispatch
      simp [hex, hstd, hm]
    rw [processEntry_eq, hd]
    simp [processedAfter, stepResult, addAll_nil]
  · intro hm
    have hd : dispatch env imports s.c label =
        (Event.MockStandard s.c.goRoot s.c.tmpPath (resolve s.c imports label).1
            (s.c.cfg (resolve s.c imports label).1) ::
          (MockStandard env s.c.goRoot s.c.tmpPath (resolve s.c imports label).1
            (s.c.cfg (resolve s.c imports label).1)).1,
          match (MockStandard env s.c.goRoot s.c.tmpPath (resolve s.c imports label).1
            (s.c.cfg (resolve s.c imports label).1)).2 with
          | .error a => .error a
          | .ok _ => .ok []) := by
      unfold dispatch
      simp [hex, hstd, hm]
    rw [processEntry_eq, hd]
    refine ⟨rfl, MockStandard_events _ _ _ _ _, ?_, ?_⟩
    · cases (MockStandard env s.c.goRoot s.c.tmpPath (resolve s.c imports label).1
        (s.c.cfg (resolve s.c imports label).1)).2 <;> simp [processedAfter, addAll_nil]
    · cases (MockStandard env s.c.goRoot s.c.tmpPath (resolve s.c imports label).1
        (s.c.cfg (resolve s.c imports label).1)).2 <;> simp [stepResult]

theorem installLoop_abort_at {env : Env} {imports : GoMap Bool} (label : GoString) (a : Abort)
    (choices : List Nat) (s s' : State) (r : Option (Except Abort Unit))
    (hd : (dispatch env imports s.c label).2 = .error a)
    (h : installLoop env imports choices s = (s', r))
    (hnew : label ∉ s.visited) (hvis : label ∈ s'.visited) :
    r = some (.error a) := by
  induction choices generalizing s with
  | nil =>
    unfold installLoop at h
    cases hp : pending s.c.processed with
    | nil =>
      simp only [hp, Prod.mk.injEq] at h
      rw [← h.1] at hvis
      exact absurd hvis hnew
    | cons p ps =>
      simp only [hp, Prod.mk.injEq] at h
      rw [← h.1] at hvis
      exact absurd hvis hnew
  | cons i rest ih =>
    unfold installLoop at h
    cases hp : pending s.c.processed with
    | nil =>
      simp only [hp, Prod.mk.injEq] at h
      rw [← h.1] at hvis
      exact absurd hvis hnew
    | cons p ps =>
      simp only [hp] at h
      rw [processEntry_eq] at h
      by_cases hl : choose p ps i = label
      · rw [hl, hd] at h
        simp only [stepResult, Prod.mk.injEq] at h
        exact h.2.symm
      · cases hdc : (dispatch env imports s.c (choose p ps i)).2 with
        | error b =>
          rw [hdc] at h
          simp only [stepResult, Prod.mk.injEq] at h
          rw [← h.1] at hvis
          simp only [List.mem_append, List.mem_singleton] at hvis
          rcases hvis with hv | hv
          · exact absurd hv hnew
          · exact absurd hv.symm hl
        | ok ns =>
          rw [hdc] at h
          simp only [stepResult] at h
          refine ih _ ?_ h ?_
          · exact hd
          · simp only [List.mem_append, List.mem_singleton, not_or]
            exact ⟨hnew, fun e => hl e.symm⟩

theorem hasNonGoCode_true (env : Env) (name src : GoString) (entries : List (GoString × Bool))
    (hsrc : LookupImportPath env name = .ok src) (hwalk : env.Walk src = .ok entries)
    (hfile : ∃ e ∈ entries, e.2 = false ∧
      (hasSuffix e.1 (str ".c") = true ∨ hasSuffix e.1 (str ".s") = true)) :
    hasNonGoCode env name = .ok true := by
  unfold hasNonGoCode
  simp only [hsrc, hwalk, Except.ok.injEq, List.any_eq_true, Bool.and_eq_true,
    Bool.not_eq_true', Bool.or_eq_true]
  obtain ⟨e, he, h1, h2⟩ := hfile
  exact ⟨e, he, h1, h2⟩

theorem addAll_mocksDone (P : GoMap Bool) (ls : List GoString) (h : mocksDone P) :
    mocksDone (addAll P ls) := by
  intro k hk hf
  rw [get?_addAll] at hf
  by_cases hm : k ∈ ls
  · simp [hm, hk] at hf
  · simp only [hm, if_false] at hf
    exact h k hk hf

/-- What a returning call of `wantToProcess` leaves behind. -/
theorem wantToProcess_ok {order : List Nat} {mockAllowed : Bool} {imports : GoMap Bool}
    {c c1 : Context} {names : GoMap GoString}
    (h : wantToProcess order mockAllowed imports c = .ok (names, c1)) :
    ∃ pairs, labelsOf mockAllowed c.stdlibImports imports = .ok pairs ∧
      c1.processed = addAll c.processed (pairs.map Prod.snd) ∧
      c1.stdlibImports = c.stdlibImports ∧
      c1.excludes = c.excludes ∧ c1.goPath = c.goPath ∧ c1.goRoot = c.goRoot ∧
      c1.tmpPath = c.tmpPath ∧ c1.cfg = c.cfg ∧
      names = (GoMap.setMany [] pairs).filter
        (fun p => !((rangeOrder order (GoMap.setMany [] pairs)).any
          (fun q => q.1 == q.2 && q.1 == p.1))) ∧
      c1.importRewrites = c.importRewrites.setMany
        (((rangeOrder order (GoMap.setMany [] pairs)).filter (fun q => !(q.1 == q.2))).map
          (fun q => (q.2, q.1))) := by
  rw [wantToProcess_eq] at h
  cases hl : labelsOf mockAllowed c.stdlibImports imports with
  | error p => simp [hl] at h
  | ok pairs =>
    simp only [hl, Except.ok.injEq, Prod.mk.injEq] at h
    obtain ⟨h1, h2⟩ := h
    subst h2
    exact ⟨pairs, rfl, rfl, rfl, rfl, rfl, rfl, rfl, rfl, h1.symm, rfl⟩

theorem installImports_eq {env : Env} {imports : GoMap Bool} {order choices : List Nat}
    {s s' : State} {names : GoMap GoString} {c1 : Context}
    (h0 : wantToProcess order true imports s.c = .ok (names, c1))
    (hl : installLoop env imports choices { s with c := c1 } = (s', some (.ok ()))) :
    installImports env imports order choices s = (s', some (.ok names)) := by
  unfold installImports
  rw [h0]
  simp only [hl]

theorem installImports_ok {env : Env} {imports : GoMap Bool} {order choices : List Nat}
    {s s' : State} {names : GoMap GoString}
    (h : installImports env imports order choices s = (s', some (.ok names))) :
    ∃ c1, wantToProcess order true imports s.c = .ok (names, c1) ∧
      installLoop env imports choices { s with c := c1 } = (s', some (.ok ())) := by
  unfold installImports at h
  cases h0 : wantToProcess order true imports s.c with
  | error p => simp [h0] at h
  | ok nc =>
    obtain ⟨names', c1⟩ := nc
    simp only [h0] at h
    cases hl : installLoop env imports choices { s with c := c1 } with
    | mk s1 r =>
      rw [hl] at h
      cases r with
      | none => simp at h
      | some x =>
        cases x with
        | error a => simp at h
        | ok u =>
          simp only [Prod.mk.injEq, Option.some.injEq, Except.ok.injEq] at h
          refine ⟨c1, ?_, ?_⟩
          · rw [h.2]
          · rw [hl, h.1]

/-- The loop returns, with a success or an abort, once it is given as many choices as
there are labels it can meet. -/
theorem installLoop_returns {env : Env} {imports : GoMap Bool} (U : List GoString)
    (choices : List Nat) (s : State)
    (hkeys : ∀ k, s.c.processed.get? k ≠ none → k ∈ U)
    (hclosed : ∀ l ∈ U, ∀ ns, (dispatch env imports s.c l).2 = .ok ns → ∀ n ∈ ns, n ∈ U)
    (hfuel : remaining U s.c.processed ≤ choices.length) :
    ∃ s' r, installLoop env imports choices s = (s', some r) := by
  induction choices generalizing s with
  | nil =>
    unfold installLoop
    cases hp : pending s.c.processed with
    | nil => exact ⟨s, _, rfl⟩
    | cons p ps =>
      exfalso
      have hmem : p ∈ pending s.c.processed := by rw [hp]; exact List.mem_cons_self _ _
      rw [mem_pending] at hmem
      have hU : p ∈ U := hkeys p (by rw [hmem]; simp)
      have : p ∈ U.dedup.filter (fun k => !(s.c.processed.get? k == some true)) := by
        simp [List.mem_filter, hU, hmem]
      have hpos := List.length_pos_of_mem this
      simp only [remaining, List.length_nil] at hfuel
      omega
  | cons i rest ih =>
    unfold installLoop
    cases hp : pending s.c.processed with
    | nil => exact ⟨s, _, rfl⟩
    | cons p ps =>
      simp only
      have hmem := choose_mem p ps i
      rw [← hp, mem_pending] at hmem
      have hU : choose p ps i ∈ U := hkeys _ (by rw [hmem]; simp)
      rw [processEntry_eq]
      cases hd : (dispatch env imports s.c (choose p ps i)).2 with
      | error a => exact ⟨_, _, rfl⟩
      | ok ns =>
        have hsub := hclosed _ hU ns hd
        simp only [stepResult, processedAfter]
        apply ih
        · intro k hk
          rcases after_keys_inv _ _ _ k (by rw [hmem]; simp) hk with h | h
          · exact hkeys k h
          · exact hsub k h
        · exact hclosed
        · have hlt : remaining U (addAll (s.c.processed.set (choose p ps i) true) ns) <
              remaining U s.c.processed := by
            unfold remaining
            apply length_filter_lt_of_imp _ _ _ _ (choose p ps i)
            · exact List.mem_dedup.2 hU
            · simp [hmem]
            · simp [after_self]
            · intro x _ hx
              simp only [Bool.not_eq_true', beq_eq_false_iff_ne, ne_eq] at hx ⊢
              intro e
              exact hx (after_true _ _ _ x e)
          simp only [List.length_cons] at hfuel
          show remaining U (addAll (s.c.processed.set (choose p ps i) true) ns) ≤ rest.length
          omega

/-- A loop in which an entry whose dispatch aborts is or becomes a worklist entry never
completes, unless the entry was processed from the start. -/
theorem installLoop_never_ok {env : Env} {imports : GoMap Bool} (label : GoString) (a : Abort)
    (choices : List Nat) (s s' : State) (r : Option (Except Abort Unit))
    (hd : (dispatch env imports s.c label).2 = .error a)
    (hnot : s.c.processed.get? label ≠ some true)
    (hsuf : hasSuffix label (str "/_mocks_") = false)
    (h : installLoop env imports choices s = (s', r))
    (hkey : s'.c.processed.get? label ≠ none) :
    r ≠ some (.ok ()) := by
  rintro rfl
  obtain ⟨V, hrun, hdone⟩ := installLoop_runs _ _ _ h
  have htrue := all_true_of_done _ hdone label hkey
  rcases hrun.true_inv label htrue with h1 | h1 | h1
  · exact hnot h1
  · obtain ⟨_, _, ns, hns, _⟩ := hrun.visited_facts label h1
    rw [hd] at hns; cases hns
  · rw [hsuf] at h1; cases h1

theorem installLoop_keys {env : Env} {imports : GoMap Bool} (choices : List Nat) (s : State)
    (k : GoString) (hk : s.c.processed.get? k ≠ none) :
    (installLoop env imports choices s).1.c.processed.get? k ≠ none := by
  induction choices generalizing s with
  | nil =>
    unfold installLoop
    cases pending s.c.processed <;> exact hk
  | cons i rest ih =>
    unfold installLoop
    cases hp : pending s.c.processed with
    | nil => exact hk
    | cons p ps =>
      simp only
      rw [processEntry_eq]
      cases hd : (dispatch env imports s.c (choose p ps i)).2 with
      | error a =>
        simp only [stepResult, processedAfter, GoMap.get?_set]
        by_cases e : choose p ps i = k
        · simp [e]
        · simp only [e, if_false]; exact hk
      | ok ns =>
        simp only [stepResult, processedAfter]
        exact ih _ (after_keys _ _ _ k hk)

/-- Claim C4, as amended: non-rewritable mock rejection.  Take a label that is not marked
processed when the loop of `installImports` starts and does not end in `/_mocks_`, that is
neither excluded nor host-builtin, whose source directory holds a file ending in `.c` or
`.s` and whose mock flag is true.  If the label is pending when the loop starts, then
`installImports`, given as many choices as there are labels it can meet, returns an error
and no names map, the unsupported-mock error when it got as far as this entry.  Under no
order does `installImports` return a names map while the label is a worklist entry.  And
the dispatch of the entry, in any state of the loop, returns the unsupported-mock error
without any workspace event (no `GenPkg`, no `LinkPkg`). -/
theorem installImports_rejects_nonGo_mock (env : Env) (imports : GoMap Bool) (s0 : State)
    (order : List Nat) (names : GoMap GoString) (c1 : Context) (label src : GoString)
    (entries : List (GoString × Bool)) (U : List GoString) (choices : List Nat)
    (h0 : wantToProcess order true imports s0.c = .ok (names, c1))
    (hnot : c1.processed.get? label ≠ some true)
    (hsuf : hasSuffix label (str "/_mocks_") = false)
    (hex : c1.excludes.getD (resolve c1 imports label).1 false = false)
    (hstd : c1.stdlibImports.getD (resolve c1 imports label).1 false = false)
    (hsrc : LookupImportPath env (resolve c1 imports label).1 = .ok src)
    (hwalk : env.Walk src = .ok entries)
    (hfile : ∃ e ∈ entries, e.2 = false ∧
      (hasSuffix e.1 (str ".c") = true ∨ hasSuffix e.1 (str ".s") = true))
    (hmock : (resolve c1 imports label).2 = true)
    (hkeys : ∀ k ∈ c1.processed.keys, k ∈ U)
    (hclosed : ∀ l ∈ U, ∀ ns, (dispatch env imports c1 l).2 = .ok ns → ∀ n ∈ ns, n ∈ U)
    (hfuel : U.length ≤ choices.length) :
    (c1.processed.get? label = some false →
      ∃ s' a, installImports env imports order choices s0 = (s', some (.error a)) ∧
        (label ∈ s'.visited → label ∉ s0.visited →
          a = Abort.error (Error.unsupportedMock (resolve c1 imports label).1))) ∧
    (∀ choices' s' r, installImports env imports order choices' s0 = (s', r) →
      s'.c.processed.get? label ≠ none → ∀ n, r ≠ some (.ok n)) ∧
    (∀ P trace visited,
      processEntry env imports ⟨{ c1 with processed := P }, trace, visited⟩ label =
        (⟨{ c1 with processed := P.set label true }, trace, visited ++ [label]⟩,
          .error (Abort.error (Error.unsupportedMock (resolve c1 imports label).1)))) := by
  have hng := hasNonGoCode_true env _ src entries hsrc hwalk hfile
  have hd : dispatch env imports c1 label =
      ([], .error (Abort.error (Error.unsupportedMock (resolve c1 imports label).1))) := by
    unfold dispatch
    simp [hex, hstd, hng, hmock]
  have hd2 : (dispatch env imports ({ s0 with c := c1 } : State).c label).2 =
      .error (Abort.error (Error.unsupportedMock (resolve c1 imports label).1)) := by
    show (dispatch env imports c1 label).2 = _
    rw [hd]
  refine ⟨?_, ?_, ?_⟩
  · intro hpend
    have hrem : remaining U c1.processed ≤ choices.length := by
      unfold remaining
      calc (U.dedup.filter _).length ≤ U.dedup.length := List.length_filter_le _ _
        _ ≤ U.length := (List.dedup_sublist U).length_le
        _ ≤ choices.length := hfuel
    obtain ⟨s', r, hl⟩ := @installLoop_returns env imports U choices { s0 with c := c1 }
      (fun k hk => hkeys k ((GoMap.mem_keys_iff _ _).2 hk)) hclosed hrem
    have hkey : s'.c.processed.get? label ≠ none := by
      have := @installLoop_keys env imports choices { s0 with c := c1 } label
        (by show c1.processed.get? label ≠ none; rw [hpend]; simp)
      rw [hl] at this
      exact this
    cases r with
    | ok u =>
      exact absurd rfl (installLoop_never_ok label _ choices _ s' _ hd2 hnot hsuf hl hkey)
    | error a =>
      refine ⟨s', a, ?_, ?_⟩
      · unfold installImports
        rw [h0]
        simp only [hl]
      · intro hvis hnew
        have := installLoop_abort_at label _ choices _ s' _ hd2 hl hnew hvis
        simp only [Option.some.injEq, Except.error.injEq] at this
        exact this
  · intro choices' s' r h hkey n hr
    subst hr
    obtain ⟨c1', h0', hl⟩ := installImports_ok h
    rw [h0] at h0'
    simp only [Except.ok.injEq, Prod.mk.injEq] at h0'
    obtain ⟨_, rfl⟩ := h0'
    exact installLoop_never_ok label _ choices' _ s' _ hd2 hnot hsuf hl hkey rfl
  · intro P trace visited
    rw [processEntry_eq]
    simp only [dispatch_frame, hd, processedAfter, stepResult, List.append_nil]

namespace GoMap
variable {V : Type}

theorem get?_iff_mem (m : GoMap V) (h : m.keys.Nodup) (k : GoString) (v : V) :
    m.get? k = some v ↔ (k, v) ∈ m := by
  constructor
  · exact mem_of_get? m k v
  · intro hm
    have hk : k ∈ m.keys := List.mem_map.2 ⟨(k, v), hm, rfl⟩
    rw [mem_keys_iff] at hk
    cases hv : m.get? k with
    | none => exact absurd hv hk
    | some v' => rw [value_unique m h k v' v (mem_of_get? m k v' hv) hm]

theorem set_of_not_mem (m : GoMap V) (k : GoString) (v : V) (h : k ∉ m.keys) :
    m.set k v = m ++ [(k, v)] := by
  induction m with
  | nil => rfl
  | cons p m ih =>
    obtain ⟨a, b⟩ := p
    simp only [keys, List.map_cons, List.mem_cons, not_or] at h
    have ha : ¬ a = k := fun e => h.1 e.symm
    simp only [set, ha, if_false, List.cons_append]
    rw [ih h.2]

theorem setMany_of_nodup (kvs : List (GoString × V)) (m : GoMap V)
    (h : (m.keys ++ keys kvs).Nodup) : m.setMany kvs = m ++ kvs := by
  induction kvs generalizing m with
  | nil => simp [setMany]
  | cons p kvs ih =>
    have e : m.setMany (p :: kvs) = (m.set p.1 p.2).setMany kvs := rfl
    have hp : p.1 ∉ m.keys := by
      intro hmem
      have := List.disjoint_of_nodup_append h hmem
      exact this (by simp [keys])
    rw [e, set_of_not_mem m p.1 p.2 hp, ih]
    · simp
    · simpa [keys] using h

theorem get?_setMany_of_mem (kvs : List (GoString × V)) (m : GoMap V) (k : GoString) (v : V)
    (h : (k, v) ∈ kvs) : ∃ v', (k, v') ∈ kvs ∧ (m.setMany kvs).get? k = some v' := by
  induction kvs generalizing m with
  | nil => simp at h
  | cons p kvs ih =>
    have e : m.setMany (p :: kvs) = (m.set p.1 p.2).setMany kvs := rfl
    rw [e]
    rcases get?_setMany kvs (m.set p.1 p.2) k with h1 | ⟨v', hv', h1⟩
    · rcases List.mem_cons.1 h with h2 | h2
      · refine ⟨v, h, ?_⟩
        rw [h1, get?_set, ← h2]
        simp
      · obtain ⟨v', hv', h3⟩ := ih (m.set p.1 p.2) h2
        exact ⟨v', List.mem_cons_of_mem _ hv', h3⟩
    · exact ⟨v', List.mem_cons_of_mem _ hv', h1⟩

theorem get?_setMany_of_not_mem (kvs : List (GoString × V)) (m : GoMap V) (k : GoString)
    (h : ∀ v, (k, v) ∉ kvs) : (m.setMany kvs).get? k = m.get? k := by
  rcases get?_setMany kvs m k with h1 | ⟨v, hv, _⟩
  · exact h1
  · exact absurd hv (h v)

/-- Two lists of assignments with the same members, no key of which gets two values, have
the same effect on every lookup. -/
theorem get?_setMany_congr (kvs1 kvs2 : List (GoString × V)) (m : GoMap V) (k : GoString)
    (hmem : ∀ p, p ∈ kvs1 ↔ p ∈ kvs2)
    (huniq : ∀ v v', (k, v) ∈ kvs1 → (k, v') ∈ kvs1 → v = v') :
    (m.setMany kvs1).get? k = (m.setMany kvs2).get? k := by
  by_cases hex : ∃ v, (k, v) ∈ kvs1
  · obtain ⟨v, hv⟩ := hex
    obtain ⟨v1, hv1, e1⟩ := get?_setMany_of_mem kvs1 m k v hv
    obtain ⟨v2, hv2, e2⟩ := get?_setMany_of_mem kvs2 m k v ((hmem _).1 hv)
    rw [e1, e2, huniq v1 v2 hv1 ((hmem _).2 hv2)]
  · rw [get?_setMany_of_not_mem kvs1 m k (fun v hv => hex ⟨v, hv⟩),
      get?_setMany_of_not_mem kvs2 m k (fun v hv => hex ⟨v, (hmem _).2 hv⟩)]

/-- Two layouts of one Go map answer every lookup alike. -/
theorem get?_perm (m1 m2 : GoMap V) (hperm : m1.Perm m2) (h : m1.keys.Nodup) (k : GoString) :
    m1.get? k = m2.get? k := by
  have h2 : m2.keys.Nodup := (hperm.map Prod.fst).nodup_iff.1 h
  apply Option.ext
  intro v
  simp only [Option.mem_def]
  rw [get?_iff_mem m1 h, get?_iff_mem m2 h2]
  exact hperm.mem_iff

end GoMap

theorem mem_names_iff (pairs visit : List (GoString × GoString)) (h : GoMap.keys pairs |>.Nodup)
    (hv : ∀ q, q ∈ visit ↔ q ∈ pairs) (p : GoString × GoString) :
    p ∈ pairs.filter (fun p => !(visit.any (fun q => q.1 == q.2 && q.1 == p.1))) ↔
      p ∈ pairs ∧ p.1 ≠ p.2 := by
  simp only [List.mem_filter, Bool.not_eq_true', List.any_eq_false, Bool.and_eq_true,
    beq_iff_eq, not_and]
  constructor
  · rintro ⟨hp, hany⟩
    exact ⟨hp, fun e => hany p ((hv p).2 hp) e rfl⟩
  · rintro ⟨hp, hne⟩
    refine ⟨hp, ?_⟩
    intro q hq e1 e2
    obtain ⟨a, b⟩ := q
    obtain ⟨k, l⟩ := p
    simp only at e1 e2 hne
    subst e1 e2
    exact hne (GoMap.value_unique pairs h a l a hp ((hv _).1 hq)).symm

theorem dispatch_congr (env : Env) (imports imports2 : GoMap Bool) (c c2 : Context)
    (hex : c.excludes = c2.excludes) (hstd : c.stdlibImports = c2.stdlibImports)
    (hgp : c.goPath = c2.goPath) (hgr : c.goRoot = c2.goRoot) (htp : c.tmpPath = c2.tmpPath)
    (hcfg : c.cfg = c2.cfg)
    (hres : ∀ l, resolve c imports l = resolve c2 imports2 l) :
    dispatch env imports c = dispatch env imports2 c2 := by
  funext l
  unfold dispatch
  rw [hres l, hex, hstd, hgp, hgr, htp, hcfg]

/-- The first `wantToProcess` of two runs on the same import map, laid out and ranged over
in two orders, when no two imports are rewritten to the same label. -/
theorem wantToProcess_perm (order1 order2 : List Nat) (mockAllowed : Bool)
    (imports1 imports2 : GoMap Bool) (c c1 c2 : Context) (names1 names2 : GoMap GoString)
    (hperm : imports1.Perm imports2) (hnodup : imports1.keys.Nodup)
    (hinj : ∀ i ∈ imports1, ∀ j ∈ imports1, ∀ l,
      labelOf mockAllowed c.stdlibImports i = .ok l →
      labelOf mockAllowed c.stdlibImports j = .ok l → i.1 ≠ l → j.1 ≠ l → i.1 = j.1)
    (h1 : wantToProcess order1 mockAllowed imports1 c = .ok (names1, c1))
    (h2 : wantToProcess order2 mockAllowed imports2 c = .ok (names2, c2)) :
    (∀ k, names1.get? k = names2.get? k) ∧
      (∀ k, c1.processed.get? k = c2.processed.get? k) ∧
      (∀ k, c1.importRewrites.get? k = c2.importRewrites.get? k) := by
  obtain ⟨pairs1, hl1, hP1, _, _, _, _, _, _, hn1, hr1⟩ := wantToProcess_ok h1
  obtain ⟨pairs2, hl2, hP2, _, _, _, _, _, _, hn2, hr2⟩ := wantToProcess_ok h2
  have hmem : ∀ p, p ∈ pairs1 ↔ p ∈ pairs2 := by
    intro p
    rw [mem_labelsOf _ _ _ _ hl1, mem_labelsOf _ _ _ _ hl2]
    constructor
    · rintro ⟨i, hi, h⟩; exact ⟨i, hperm.mem_iff.1 hi, h⟩
    · rintro ⟨i, hi, h⟩; exact ⟨i, hperm.mem_iff.2 hi, h⟩
  have hnd1 : (GoMap.keys pairs1).Nodup := by
    show (pairs1.map Prod.fst).Nodup
    rw [keys_labelsOf _ _ _ _ hl1]; exact hnodup
  have hnd2 : (GoMap.keys pairs2).Nodup := by
    show (pairs2.map Prod.fst).Nodup
    rw [keys_labelsOf _ _ _ _ hl2]
    exact (hperm.map Prod.fst).nodup_iff.1 hnodup
  have hN1 : GoMap.setMany ([] : GoMap GoString) pairs1 = pairs1 := by
    rw [GoMap.setMany_of_nodup pairs1 [] (by simpa [GoMap.keys] using hnd1)]; rfl
  have hN2 : GoMap.setMany ([] : GoMap GoString) pairs2 = pairs2 := by
    rw [GoMap.setMany_of_nodup pairs2 [] (by simpa [GoMap.keys] using hnd2)]; rfl
  rw [hN1] at hn1 hr1
  rw [hN2] at hn2 hr2
  refine ⟨?_, ?_, ?_⟩
  · intro k
    have hk1 : (GoMap.keys names1).Nodup := by
      rw [hn1]
      exact hnd1.sublist ((List.filter_sublist _).map Prod.fst)
    have hk2 : (GoMap.keys names2).Nodup := by
      rw [hn2]
      exact hnd2.sublist ((List.filter_sublist _).map Prod.fst)
    apply Option.ext
    intro l
    simp only [Option.mem_def]
    rw [GoMap.get?_iff_mem names1 hk1, GoMap.get?_iff_mem names2 hk2, hn1, hn2,
      mem_names_iff pairs1 _ hnd1 (mem_rangeOrder order1 pairs1),
      mem_names_iff pairs2 _ hnd2 (mem_rangeOrder order2 pairs2), hmem]
  · intro k
    rw [hP1, hP2, get?_addAll, get?_addAll]
    have : k ∈ pairs1.map Prod.snd ↔ k ∈ pairs2.map Prod.snd := by
      simp only [List.mem_map]
      constructor
      · rintro ⟨p, hp, e⟩; exact ⟨p, (hmem p).1 hp, e⟩
      · rintro ⟨p, hp, e⟩; exact ⟨p, (hmem p).2 hp, e⟩
    by_cases hk : k ∈ pairs1.map Prod.snd
    · rw [if_pos hk, if_pos (this.1 hk)]
    · rw [if_neg hk, if_neg (fun h => hk (this.2 h))]
  · intro k
    rw [hr1, hr2]
    have hK : ∀ (order : List Nat) (pairs : List (GoString × GoString)) (p : GoString × GoString),
        p ∈ ((rangeOrder order pairs).filter (fun q => !(q.1 == q.2))).map
          (fun q => (q.2, q.1)) ↔ (p.2, p.1) ∈ pairs ∧ p.2 ≠ p.1 := by
      intro order pairs p
      simp only [List.mem_map, List.mem_filter, mem_rangeOrder, Bool.not_eq_true',
        beq_eq_false_iff_ne, ne_eq]
      constructor
      · rintro ⟨q, ⟨hq1, hq2⟩, rfl⟩
        exact ⟨hq1, hq2⟩
      · rintro ⟨hq1, hq2⟩
        exact ⟨(p.2, p.1), ⟨hq1, hq2⟩, rfl⟩
    apply GoMap.get?_setMany_congr
    · intro p
      rw [hK, hK, hmem]
    · intro v v' hv hv'
      rw [hK] at hv hv'
      obtain ⟨i, hi, hi1, hi2⟩ := (mem_labelsOf _ _ _ _ hl1 _).1 hv.1
      obtain ⟨j, hj, hj1, hj2⟩ := (mem_labelsOf _ _ _ _ hl1 _).1 hv'.1
      simp only at hi1 hi2 hj1 hj2 hv hv'
      have := hinj i hi j hj k hi2 hj2 (by rw [hi1]; exact hv.2) (by rw [hj1]; exact hv'.2)
      rw [← hi1, ← hj1]
      exact this

/-- Claim C10, as amended: resolution does not depend on any order in which a Go map is
ranged over, provided no two root imports are rewritten to the same scratch label.  Take a
context in which no `/_mocks_` label is pending (true of the empty worklist of `NewContext`
and kept by `installImports`) and two layouts of one root import map.  Two successful runs
of `installImports`, whatever the order of the range over the names map and the order in
which the loop visits the pending entries, return the same names map and end with the same
worklist, all processed, and the same rewrite map (as maps: every lookup agrees), with the
same workspace events and dispatched labels up to order, and the same real identifier and
mock flag for every label. -/
theorem installImports_order_independent (env : Env) (imports1 imports2 : GoMap Bool)
    (s s1 s2 : State) (order1 order2 choices1 choices2 : List Nat)
    (names1 names2 : GoMap GoString)
    (hperm : imports1.Perm imports2) (hnodup : imports1.keys.Nodup)
    (hinj : ∀ i ∈ imports1, ∀ j ∈ imports1, ∀ l,
      labelOf true s.c.stdlibImports i = .ok l →
      labelOf true s.c.stdlibImports j = .ok l → i.1 ≠ l → j.1 ≠ l → i.1 = j.1)
    (hinv : mocksDone s.c.processed)
    (h1 : installImports env imports1 order1 choices1 s = (s1, some (.ok names1)))
    (h2 : installImports env imports2 order2 choices2 s = (s2, some (.ok names2))) :
    (∀ k, names1.get? k = names2.get? k) ∧
      (∀ k, s1.c.processed.get? k = s2.c.processed.get? k) ∧
      (∀ k ∈ s1.c.processed.keys, s1.c.processed.get? k = some true) ∧
      (∀ k, s1.c.importRewrites.get? k = s2.c.importRewrites.get? k) ∧
      s1.trace.Perm s2.trace ∧
      s1.visited.Perm s2.visited ∧
      (∀ label, resolve s1.c imports1 label = resolve s2.c imports2 label) := by
  obtain ⟨c1, h01, hl1⟩ := installImports_ok h1
  obtain ⟨c2, h02, hl2⟩ := installImports_ok h2
  obtain ⟨hn, hP, hR⟩ := wantToProcess_perm order1 order2 true imports1 imports2 s.c c1 c2
    names1 names2 hperm hnodup hinj h01 h02
  obtain ⟨pairs1, _, hP1, a1, a2, a3, a4, a5, a6, _, _⟩ := wantToProcess_ok h01
  obtain ⟨pairs2, _, hP2, b1, b2, b3, b4, b5, b6, _, _⟩ := wantToProcess_ok h02
  have hres : ∀ l, resolve c1 imports1 l = resolve c2 imports2 l := by
    intro l
    unfold resolve
    rw [hR l]
    simp only [GoMap.getD, GoMap.get?_perm imports1 imports2 hperm hnodup l]
  have hframe : dispatch env imports1 ({ s with c := c1 } : State).c =
      dispatch env imports2 ({ s with c := c2 } : State).c :=
    dispatch_congr env imports1 imports2 c1 c2 (a2.trans b2.symm) (a1.trans b1.symm)
      (a3.trans b3.symm) (a4.trans b4.symm) (a5.trans b5.symm) (a6.trans b6.symm) hres
  obtain ⟨V1, r1, d1⟩ := installLoop_runs _ _ _ hl1
  obtain ⟨V2, r2, d2⟩ := installLoop_runs _ _ _ hl2
  have hinv2 : mocksDone ({ s with c := c2 } : State).c.processed := by
    show mocksDone c2.processed
    rw [hP2]
    exact addAll_mocksDone _ _ hinv
  obtain ⟨_, hget, htrace, hvis, hrw1, hrw2⟩ :=
    Runs.confluent r1 r2 d1 d2 hinv2 hframe hP rfl rfl
  have e1 : s1.c.importRewrites = c1.importRewrites := hrw1
  have e2 : s2.c.importRewrites = c2.importRewrites := hrw2
  refine ⟨hn, hget, ?_, ?_, htrace, hvis, ?_⟩
  · intro k hk
    exact all_true_of_done _ d1 k ((GoMap.mem_keys_iff _ _).1 hk)
  · intro k
    rw [e1, e2]
    exact hR k
  · intro label
    have := hres label
    unfold resolve at this ⊢
    rw [e1, e2]
    exact this

/-- Claim C5, as amended: closure termination.  Let `U` be a finite set of labels that holds
the worklist after the first `wantToProcess` and is closed under dispatch, the dispatch of
every label of `U` that is not already processed and does not end in `/_mocks_`
succeeding.  Then `installImports` returns the names map as soon as it is
given `U.length` choices, in whatever order it visits the pending entries and ranges over
the names map; on return every worklist entry is processed;
no label is dispatched twice, and the labels dispatched are exactly the entries that were
not already processed on entry and do not end in `/_mocks_`; the label of every root import
is an entry, and so is every identifier that the dispatch of a dispatched entry hands to
`wantToProcess` (none for an excluded or host-builtin entry). -/
theorem installImports_terminates (env : Env) (imports : GoMap Bool) (s : State)
    (names : GoMap GoString) (c1 : Context) (U : List GoString) (order choices : List Nat)
    (h0 : wantToProcess order true imports s.c = .ok (names, c1))
    (hinv : mocksDone s.c.processed)
    (hkeys : ∀ k ∈ c1.processed.keys, k ∈ U)
    (hclosed : ∀ l ∈ U, hasSuffix l (str "/_mocks_") = false →
      c1.processed.get? l ≠ some true →
        ∃ ns, (dispatch env imports c1 l).2 = .ok ns ∧ ∀ n ∈ ns, n ∈ U)
    (hfuel : U.length ≤ choices.length) :
    ∃ s' V, installImports env imports order choices s = (s', some (.ok names)) ∧
      (∀ k ∈ s'.c.processed.keys, s'.c.processed.get? k = some true) ∧
      s'.visited = s.visited ++ V ∧ V.Nodup ∧
      (∀ k, k ∈ V ↔ (k ∈ s'.c.processed.keys ∧ s.c.processed.get? k ≠ some true ∧
        hasSuffix k (str "/_mocks_") = false)) ∧
      (∀ i ∈ imports, ∀ l, labelOf true s.c.stdlibImports i = .ok l →
        l ∈ s'.c.processed.keys) ∧
      (∀ l ∈ V, ∀ ns, (dispatch env imports c1 l).2 = .ok ns →
        ∀ n ∈ ns, n ∈ s'.c.processed.keys) := by
  have hrem : remaining U c1.processed ≤ choices.length := by
    unfold remaining
    calc (U.dedup.filter _).length ≤ U.dedup.length := List.length_filter_le _ _
      _ ≤ U.length := (List.dedup_sublist U).length_le
      _ ≤ choices.length := hfuel
  obtain ⟨pairs, hpairs, hP, _⟩ := wantToProcess_ok h0
  have hinv1 : mocksDone c1.processed := by
    rw [hP]; exact addAll_mocksDone _ _ hinv
  obtain ⟨s', hl⟩ := @installLoop_terminates env imports U choices
    { s with c := c1 }
    (fun k hk => hkeys k ((GoMap.mem_keys_iff _ _).2 hk)) hinv1 hclosed hrem
  obtain ⟨V, hrun, hdone⟩ := installLoop_runs _ _ _ hl
  have hmono : ∀ k, s.c.processed.get? k = some true → c1.processed.get? k = some true := by
    intro k hk
    rw [hP, get?_addAll]
    by_cases hm : k ∈ pairs.map Prod.snd
    · simp [hm, GoMap.getD, hk]
    · simp [hm, hk]
  refine ⟨s', V, installImports_eq h0 hl, ?_, hrun.trace_eq.2, hrun.nodup, ?_, ?_, ?_⟩
  · intro k hk
    exact all_true_of_done _ hdone k ((GoMap.mem_keys_iff _ _).1 hk)
  · intro k
    constructor
    · intro hk
      obtain ⟨f1, f2, _⟩ := hrun.visited_facts k hk
      refine ⟨(GoMap.mem_keys_iff _ _).2 (by rw [f2]; simp), fun e => f1 (hmono k e), ?_⟩
      exact (hrun.preserves_mocksDone hinv1).2 k hk
    · rintro ⟨hk, hnt, hsuf⟩
      have htrue := all_true_of_done _ hdone k ((GoMap.mem_keys_iff _ _).1 hk)
      rcases hrun.true_inv k htrue with h | h | h
      · exfalso
        have h' : c1.processed.get? k = some true := h
        rw [hP, get?_addAll] at h'
        by_cases hm : k ∈ pairs.map Prod.snd
        · simp only [hm, if_true, hsuf, Bool.false_or, Option.some.injEq, GoMap.getD] at h'
          cases hv : s.c.processed.get? k with
          | none => simp [hv] at h'
          | some b =>
            simp [hv] at h'
            rw [hv, h'] at hnt
            exact hnt rfl
        · simp only [hm, if_false] at h'
          exact hnt h'
      · exact h
      · rw [hsuf] at h; cases h
  · intro i hi l hl'
    have hmem : (i.1, l) ∈ pairs := (mem_labelsOf _ _ _ _ hpairs (i.1, l)).2 ⟨i, hi, rfl, hl'⟩
    have hk1 : c1.processed.get? l ≠ none := by
      rw [hP, get?_addAll]
      have : l ∈ pairs.map Prod.snd := List.mem_map.2 ⟨(i.1, l), hmem, rfl⟩
      simp [this]
    exact (GoMap.mem_keys_iff _ _).2 (hrun.mono.2 l hk1)
  · intro l hl' ns hns n hn
    obtain ⟨_, _, ns', hns', hsub⟩ := hrun.visited_facts l hl'
    have e : ns' = ns := by
      have : (dispatch env imports c1 l).2 = .ok ns' := hns'
      rw [hns] at this
      cases this
      rfl
    subst e
    exact (GoMap.mem_keys_iff _ _).2 (hsub n hn)

theorem wantToProcess_demo :
    wantToProcess [] true demoImports demoState.c =
      .ok ([(str "os", str "_s")], demoContext1) :=
  rfl

theorem mocksDone_nil : mocksDone [] := by
  intro k _ h
  simp [GoMap.get?] at h

theorem demoUniverse_keys : ∀ k ∈ demoContext1.processed.keys, k ∈ demoUniverse := by decide

theorem demoUniverse_closed :
    ∀ l ∈ demoUniverse, hasSuffix l (str "/_mocks_") = false →
      demoContext1.processed.get? l ≠ some true →
        ∃ ns, (dispatch demoEnv demoImports demoContext1 l).2 = .ok ns ∧
          ∀ n ∈ ns, n ∈ demoUniverse := by
  intro l hl _ _
  simp only [demoUniverse, List.mem_cons, List.mem_singleton, List.not_mem_nil, or_false] at hl
  rcases hl with rfl | rfl | rfl | rfl | rfl | rfl
  · exact ⟨[str "b", str "os"], rfl, by decide⟩
  · exact ⟨[], rfl, by decide⟩
  · exact ⟨[str "a", str "cg"], rfl, by decide⟩
  · exact ⟨[], rfl, by decide⟩
  · exact ⟨[str "unsafe"], rfl, by decide⟩
  · exact ⟨[], rfl, by decide⟩

/-- The amended claim C5 on the demonstration workspace, whose import graph has the cycle
`a -> b -> a`. -/
theorem installImports_terminates_witness :
    ∃ s', installImports demoEnv demoImports [] [0, 0, 0, 0, 0, 0] demoState =
      (s', some (.ok [(str "os", str "_s")])) ∧
      ∀ k ∈ s'.c.processed.keys, s'.c.processed.get? k = some true := by
  obtain ⟨s', V, h, h', _⟩ := installImports_terminates demoEnv demoImports demoState
    [(str "os", str "_s")] demoContext1 demoUniverse [] [0, 0, 0, 0, 0, 0]
    wantToProcess_demo mocksDone_nil demoUniverse_keys demoUniverse_closed (by decide)
  exact ⟨s', h, h'⟩

theorem installImports_demo_first :
    (installImports demoEnv demoImports [] [0, 0, 0, 0, 0, 0] demoState).2 =
      some (.ok [(str "os", str "_s")]) := by
  decide

theorem installImports_demo_last :
    (installImports demoEnv demoImportsSwapped [1] [1, 1, 1, 1, 1, 1] demoState).2 =
      some (.ok [(str "os", str "_s")]) := by
  decide

theorem demoImports_labels :
    ∀ i ∈ demoImports, ∀ j ∈ demoImports, ∀ l,
      labelOf true demoState.c.stdlibImports i = .ok l →
      labelOf true demoState.c.stdlibImports j = .ok l → i.1 ≠ l → j.1 ≠ l → i.1 = j.1 := by
  intro i hi j hj l h1 h2 n1 n2
  have ea : labelOf true demoState.c.stdlibImports (str "a", false) = .ok (str "a") := by
    decide
  simp only [demoImports, List.mem_cons, List.mem_singleton, List.not_mem_nil, or_false]
    at hi hj
  rcases hi with rfl | rfl <;> rcases hj with rfl | rfl
  · rfl
  · rw [ea] at h1; cases h1; exact absurd rfl n1
  · rw [ea] at h2; cases h2; exact absurd rfl n2
  · rfl

/-- The amended claim C10 on the demonstration workspace: the two layouts of the root
imports, two orders of the range over the names map, and the loop always taking the first
or always the second pending entry, perform the same workspace events, in different
orders. -/
theorem installImports_order_independent_witness :
    (installImports demoEnv demoImports [] [0, 0, 0, 0, 0, 0] demoState).1.trace.Perm
      (installImports demoEnv demoImportsSwapped [1] [1, 1, 1, 1, 1, 1] demoState).1.trace :=
  (installImports_order_independent demoEnv demoImports demoImportsSwapped demoState _ _
    [] [1] [0, 0, 0, 0, 0, 0] [1, 1, 1, 1, 1, 1] [(str "os", str "_s")] [(str "os", str "_s")]
    (List.Perm.swap _ _ _) (by decide) demoImports_labels
    mocksDone_nil (Prod.ext rfl installImports_demo_first)
    (Prod.ext rfl installImports_demo_last)).2.2.2.2.1

theorem installImports_demo_orders_differ :
    (installImports demoEnv demoImports [] [0, 0, 0, 0, 0, 0] demoState).1.visited ≠
      (installImports demoEnv demoImportsSwapped [1] [1, 1, 1, 1, 1, 1] demoState).1.visited := by
  decide

/-- Claim C10 fails as stated: `math` and `path` are both mocked and share the label `_ath`.
From the same context, with the same root imports and the same visiting order of the loop
(one pending entry), the run that ranges over the names map from `math` to `path` records
`_ath -> path` and mocks `path`; the run that ranges from `path` to `math` records
`_ath -> math` and mocks `math`. -/
theorem installImports_order_independent_counterexample :
    (installImports demoEnv mathPathImports [] [0] mathPathState).2 =
      some (.ok [(str "math", str "_ath"), (str "path", str "_ath")]) ∧
    (installImports demoEnv mathPathImports [1] [0] mathPathState).2 =
      some (.ok [(str "math", str "_ath"), (str "path", str "_ath")]) ∧
    (installImports demoEnv mathPathImports [] [0] mathPathState).1.c.importRewrites =
      [(str "_ath", str "path")] ∧
    (installImports demoEnv mathPathImports [1] [0] mathPathState).1.c.importRewrites =
      [(str "_ath", str "math")] ∧
    (installImports demoEnv mathPathImports [] [0] mathPathState).1.trace =
      [Event.MockStandard (str "/goroot") (str "/tmp/w") (str "path") 0,
        Event.MkdirAll (str "/tmp/w/src/_ath"),
        Event.MakePkg (str "/goroot/src/pkg/path") (str "/tmp/w/src/_ath") true 0] ∧
    (installImports demoEnv mathPathImports [1] [0] mathPathState).1.trace =
      [Event.MockStandard (str "/goroot") (str "/tmp/w") (str "math") 0,
        Event.MkdirAll (str "/tmp/w/src/_ath"),
        Event.MakePkg (str "/goroot/src/pkg/math") (str "/tmp/w/src/_ath") true 0] := by
  decide

/-- Claim C3 at the excluded package `gomock` requested as a mock. -/
theorem installImports_exclusion_precedence_witness :
    (processEntry demoEnv [(gomock, true)] demoExcludedState gomock).1.trace =
      [Event.LinkPkg (str "/go") (str "/tmp/w") gomock,
        Event.symlinkPackage (str "/go/src/code.google.com/p/gomock/gomock")
          (str "/tmp/w/src/code.google.com/p/gomock/gomock")] ∧
    (processEntry demoEnv [(gomock, true)] demoExcludedState gomock).1.c.processed =
      [(gomock, true)] :=
  ⟨(installImports_exclusion_precedence demoEnv [(gomock, true)] demoExcludedState gomock
      (by decide)).1.trans (by decide),
    (installImports_exclusion_precedence demoEnv [(gomock, true)] demoExcludedState gomock
      (by decide)).2.2.1.trans (by decide)⟩

theorem wantToProcess_cgo :
    wantToProcess [] true cgoImports demoState.c = .ok ([], demoCgoState.c) :=
  rfl

theorem cgoUniverse_closed :
    ∀ l ∈ [str "cg"], ∀ ns, (dispatch demoEnv cgoImports demoCgoState.c l).2 = .ok ns →
      ∀ n ∈ ns, n ∈ [str "cg"] := by
  intro l hl ns h
  simp only [List.mem_singleton] at hl
  subst hl
  have e : (dispatch demoEnv cgoImports demoCgoState.c (str "cg")).2 =
      .error (Abort.error (Error.unsupportedMock (str "cg"))) := rfl
  rw [e] at h
  cases h

/-- The amended claim C4 at the package `cg`, which holds the file `y.c`, requested as a
mock from the fresh context: `installImports` returns an error. -/
theorem installImports_rejects_nonGo_mock_witness :
    ∃ s' a, installImports demoEnv cgoImports [] [0] demoState = (s', some (.error a)) ∧
      (str "cg" ∈ s'.visited → str "cg" ∉ demoState.visited →
        a = Abort.error (Error.unsupportedMock (resolve demoCgoState.c cgoImports (str "cg")).1)) :=
  (installImports_rejects_nonGo_mock demoEnv cgoImports demoState [] [] demoCgoState.c
    (str "cg") (str "/go/src/cg")
    [(str "/go/src/cg", true), (str "/go/src/cg/x.go", false), (str "/go/src/cg/y.c", false)]
    [str "cg"] [0]
    wantToProcess_cgo (by decide) (by decide) (by decide) (by decide) (by decide) (by decide)
    ⟨(str "/go/src/cg/y.c", false), by decide, by decide, Or.inl (by decide)⟩ (by decide)
    (by decide) cgoUniverse_closed (by decide)).1 (by decide)

/-- Claim C4 fails as stated, at two worklist entries that are neither excluded nor
host-builtin, hold a C file and have the mock flag true.  From the fresh context the
root import `x/_mocks_`, flagged mock, is marked processed by `wantToProcess` and never
dispatched: `installImports` returns a names map and no error.  And once a first call has
linked `cg`, a second call with `cg` flagged mock finds the entry processed and returns a
names map too. -/
theorem installImports_rejects_nonGo_mock_counterexample :
    ((installImports demoEnv mocksImports [] [0] demoState).2 = some (.ok []) ∧
      (installImports demoEnv mocksImports [] [0] demoState).1.c.processed.get?
        (str "x/_mocks_") = some true ∧
      (installImports demoEnv mocksImports [] [0] demoState).1.trace = [] ∧
      resolve (installImports demoEnv mocksImports [] [0] demoState).1.c mocksImports
        (str "x/_mocks_") = (str "x/_mocks_", true) ∧
      demoContext.excludes.getD (str "x/_mocks_") false = false ∧
      demoContext.stdlibImports.getD (str "x/_mocks_") false = false ∧
      hasNonGoCode demoEnv (str "x/_mocks_") = .ok true) ∧
    ((installImports demoEnv [(str "cg", false)] [] [0, 0] demoState).2 = some (.ok []) ∧
      (installImports demoEnv cgoImports [] [0]
        (installImports demoEnv [(str "cg", false)] [] [0, 0] demoState).1).2 = some (.ok []) ∧
      (installImports demoEnv cgoImports [] [0]
        (installImports demoEnv [(str "cg", false)] [] [0, 0] demoState).1).1.trace =
        (installImports demoEnv [(str "cg", false)] [] [0, 0] demoState).1.trace ∧
      resolve (installImports demoEnv cgoImports [] [0]
        (installImports demoEnv [(str "cg", false)] [] [0, 0] demoState).1).1.c cgoImports
        (str "cg") = (str "cg", true) ∧
      demoContext.excludes.getD (str "cg") false = false ∧
      demoContext.stdlibImports.getD (str "cg") false = false ∧
      hasNonGoCode demoEnv (str "cg") = .ok true) :=
  ⟨⟨by decide, by decide, by decide, by decide, by decide, by decide, by decide⟩,
    ⟨by decide, by decide, by decide, by decide, by decide, by decide, by decide⟩⟩

/-- The unmarked label `os`, which the dispatch of the package `a` adds to the worklist,
is dispatched with the mock flag of the root import map and mocked too, although the
comments at lines 275 and 288 of `context.go` say that a processed package can only add
actual packages. -/
theorem processEntry_unmarked_builtin :
    resolve demoContext1 demoImports (str "os") = (str "os", true) ∧
    (processEntry demoEnv demoImports demoBuiltinState (str "os")).1.trace =
      [Event.MockStandard (str "/goroot") (str "/tmp/w") (str "os") 0,
        Event.MkdirAll (str "/tmp/w/src/_s"),
        Event.MakePkg (str "/goroot/src/pkg/os") (str "/tmp/w/src/_s") true 0] := by
  decide

/-- Claim C8 at the host-builtins `os`, mocked under the label `_s`, and `unsafe`, not
mocked. -/
theorem installImports_builtin_policy_witness :
    (processEntry demoEnv demoImports demoBuiltinState (str "_s")).1.trace =
      [Event.MockStandard (str "/goroot") (str "/tmp/w") (str "os") 0,
        Event.MkdirAll (str "/tmp/w/src/_s"),
        Event.MakePkg (str "/goroot/src/pkg/os") (str "/tmp/w/src/_s") true 0] ∧
    processEntry demoEnv demoImports demoBuiltinState (str "unsafe") =
      (⟨{ demoContext1 with processed := demoContext1.processed.set (str "unsafe") true }, [],
        [str "unsafe"]⟩, .ok ()) :=
  ⟨((installImports_builtin_policy demoEnv demoImports demoBuiltinState (str "_s")
      (by decide) (by decide)).2 (by decide)).1.trans (by decide),
    (installImports_builtin_policy demoEnv demoImports demoBuiltinState (str "unsafe")
      (by decide) (by decide)).1 (by decide)⟩

/-- The amended claim C6 at the root imports of the demonstration workspace. -/
theorem wantToProcess_minimal_witness :
    GoMap.get? [(str "os", str "_s")] (str "a") = none ∧
      str "os" ≠ str "_s" ∧
      ∃ mock, (str "os", mock) ∈ demoImports ∧
        labelOf true demoContext.stdlibImports (str "os", mock) = .ok (str "_s") :=
  ⟨((wantToProcess_minimal [] true demoImports demoContext demoContext1 [(str "os", str "_s")]
      (by decide) rfl).1 (str "a") false (by decide) (by decide)).1,
    (wantToProcess_minimal [] true demoImports demoContext demoContext1 [(str "os", str "_s")]
      (by decide) rfl).2.1 (str "os", str "_s") (by decide)⟩

/-- Claim C6 fails as stated: the import `_s` is its own label, and the call that also
mocks the host-builtin `os`, whose label is `_s`, adds the entry `_s -> os` to a rewrite
map that had no entry keyed by `_s`. -/
theorem wantToProcess_minimal_counterexample :
    labelOf true demoContext.stdlibImports (str "_s", false) = .ok (str "_s") ∧
    demoContext.importRewrites.get? (str "_s") = none ∧
    (wantToProcess [] true collidingImports demoContext).map
      (fun r => r.2.importRewrites.get? (str "_s")) = .ok (some (str "os")) := by
  decide

/-- Claim C5 fails as stated: with root imports the excluded package `gomock` and the label
`x/_mocks_`, the call returns; `LinkPkg` reported that `gomock` imports `dep`, which is
not a worklist entry; and `x/_mocks_` is a processed entry that was never dispatched. -/
theorem installImports_terminates_counterexample :
    (installImports demoEnv excludedImports [] [0, 0] demoState).2 = some (.ok []) ∧
    (LinkPkg demoEnv (str "/go") (str "/tmp/w") gomock).2 = .ok [(str "dep", false)] ∧
    (installImports demoEnv excludedImports [] [0, 0] demoState).1.c.processed.get?
      (str "dep") = none ∧
    (installImports demoEnv excludedImports [] [0, 0] demoState).1.c.processed.get?
      (str "x/_mocks_") = some true ∧
    (installImports demoEnv excludedImports [] [0, 0] demoState).1.visited = [gomock] ∧
    (installImports demoEnv excludedImports [] [0, 0] demoState).1.trace =
      [Event.LinkPkg (str "/go") (str "/tmp/w") gomock,
        Event.symlinkPackage (str "/go/src/code.google.com/p/gomock/gomock")
          (str "/tmp/w/src/code.google.com/p/gomock/gomock")] := by
  decide

section invariant
variable {env : Env} {imports : GoMap Bool}

theorem set_true_mocksDone (P : GoMap Bool) (l : GoString) (h : mocksDone P) :
    mocksDone (P.set l true) := by
  intro k hk hf
  rw [GoMap.get?_set] at hf
  by_cases e : l = k
  · simp [e] at hf
  · simp only [e, if_false] at hf
    exact h k hk hf

theorem processEntry_mocksDone (s : State) (l : GoString) (h : mocksDone s.c.processed) :
    mocksDone (processEntry env imports s l).1.c.processed := by
  rw [processEntry_eq]
  simp only [processedAfter]
  cases (dispatch env imports s.c l).2 with
  | error a => exact set_true_mocksDone _ _ h
  | ok ns => exact after_mocksDone _ _ _ h

theorem installLoop_mocksDone (choices : List Nat) (s : State) (h : mocksDone s.c.processed) :
    mocksDone (installLoop env imports choices s).1.c.processed := by
  induction choices generalizing s with
  | nil =>
    unfold installLoop
    cases pending s.c.processed <;> exact h
  | cons i rest ih =>
    unfold installLoop
    cases hp : pending s.c.processed with
    | nil => exact h
    | cons p ps =>
      simp only
      have hstep := @processEntry_mocksDone env imports s (choose p ps i) h
      cases hr : processEntry env imports s (choose p ps i) with
      | mk s1 r =>
        rw [hr] at hstep
        cases r with
        | error a => exact hstep
        | ok u => exact ih s1 hstep

/-- The invariant `mocksDone` holds of the empty worklist of `NewContext` and is kept by
every call of `installImports`, however it ends. -/
theorem installImports_mocksDone (order choices : List Nat) (s : State)
    (h : mocksDone s.c.processed) :
    mocksDone (installImports env imports order choices s).1.c.processed := by
  unfold installImports
  cases h0 : wantToProcess order true imports s.c with
  | error p => exact h
  | ok nc =>
    obtain ⟨names, c1⟩ := nc
    obtain ⟨pairs, _, hP, _⟩ := wantToProcess_ok h0
    have h1 : mocksDone ({ s with c := c1 } : State).c.processed := by
      show mocksDone c1.processed
      rw [hP]; exact addAll_mocksDone _ _ h
    have := @installLoop_mocksDone env imports choices _ h1
    simp only
    cases hr : installLoop env imports choices { s with c := c1 } with
    | mk s1 r =>
      rw [hr] at this
      cases r with
      | none => exact this
      | some x => cases x <;> exact this

theorem choose_surjective (p : GoString) (ps : List GoString) (l : GoString)
    (h : l ∈ p :: ps) : ∃ i, choose p ps i = l := by
  obtain ⟨n, hn, e⟩ := List.getElem_of_mem h
  refine ⟨n, ?_⟩
  unfold choose
  rw [Nat.mod_eq_of_lt hn, List.getD_eq_getElem _ _ hn]
  exact e

/-- Every complete sequence of dispatches is the one some list of choices selects. -/
theorem Runs.realizable {s s' : State} {V : List GoString} (h : Runs env imports s V s')
    (hdone : pending s'.c.processed = []) :
    ∃ choices, installLoop env imports choices s = (s', some (.ok ())) := by
  induction h with
  | done s =>
    refine ⟨[], ?_⟩
    unfold installLoop
    rw [hdone]
  | step s s1 s' l V hl hstep hrest ih =>
    obtain ⟨choices, hc⟩ := ih hdone
    have hmem : l ∈ pending s.c.processed := (mem_pending _ _).2 hl
    cases hp : pending s.c.processed with
    | nil => rw [hp] at hmem; simp at hmem
    | cons p ps =>
      rw [hp] at hmem
      obtain ⟨i, hi⟩ := choose_surjective p ps l hmem
      refine ⟨i :: choices, ?_⟩
      unfold installLoop
      simp only [hp, hi, hstep]
      exact hc

theorem pickAt_surjective {α : Type} (x : α) (xs : List α) (a : α) (h : a ∈ x :: xs) :
    ∃ i, (pickAt i x xs).1 = a := by
  induction xs generalizing x with
  | nil =>
    simp only [List.mem_singleton] at h
    exact ⟨0, h.symm⟩
  | cons y ys ih =>
    rcases List.mem_cons.1 h with h | h
    · exact ⟨0, h.symm⟩
    · obtain ⟨i, hi⟩ := ih y h
      exact ⟨i + 1, hi⟩

/-- Every order in which a Go map can be ranged over is the one some `order` selects. -/
theorem rangeOrder_surjective {α : Type} (l l' : List α) (h : l'.Perm l) :
    ∃ order, rangeOrder order l = l' := by
  induction l' generalizing l with
  | nil =>
    have := h.symm.eq_nil
    subst this
    exact ⟨[], rfl⟩
  | cons a t ih =>
    cases l with
    | nil => exact absurd h.eq_nil (by simp)
    | cons x xs =>
      obtain ⟨i, hi⟩ := pickAt_surjective x xs a (h.mem_iff.1 (List.mem_cons_self _ _))
      have hp := pickAt_perm i x xs
      rw [hi] at hp
      obtain ⟨order, ho⟩ := ih (pickAt i x xs).2 ((List.Perm.cons_inv (h.trans hp.symm)))
      refine ⟨i :: order, ?_⟩
      simp only [rangeOrder, hi, ho]

end invariant


end Withmock
